import Mathlib

/-!
Shallow embedding of the session transcript chunking, embedding and
vector-indexing pipeline of the `claude-session-explorer` repository.

The repository is TypeScript; its three source files define
* a transcript parser with tool-call/tool-result correlation (`tools.ts`,
  `parseSessionJsonl` with a `pendingToolCalls` map),
* a second, simpler transcript parser, a turn chunker
  (`chunkSession`, `formatChunkText`) and the batch embedding pipeline
  (`embedder.ts`: `embedText`, `summarizeChunk`, `main`),
* the pgvector similarity query (`searchSessions` in `tools.ts`).

JavaScript strings are modelled as Lean `String` over its `List Char`
model; `String.prototype.slice(0, n)` becomes `jsSlice` (character-based
rather than UTF-16-code-unit-based, which agrees on all non-astral text)
and `String.prototype.trim()` becomes `jsTrim`.  JSON values that the code
reads are modelled by the inductive types `ContentItem`, `MsgContent`,
`Entry` and `RawLine`; a line that is blank or fails `JSON.parse` is a
`RawLine.blank` / `RawLine.malformed`.  External services (the Ollama
embedding endpoint, the Agent-SDK summarizer, the Postgres store) are
modelled at their interface boundary: responses and per-session outcomes
are explicit arguments, and the SQL `SELECT ... WHERE embedding_vec IS NOT
NULL ORDER BY embedding_vec <=> $1 LIMIT $2` is embedded as
filter / stable sort by an abstract distance function / take.
-/

/-- JS `s.slice(0, n)` on strings (character-counted). -/
def jsSlice (s : String) (n : Nat) : String := ⟨s.data.take n⟩

/-- JS `s.trim()`: strip whitespace from both ends. -/
def jsTrim (s : String) : String :=
  ⟨((s.data.dropWhile Char.isWhitespace).reverse.dropWhile Char.isWhitespace).reverse⟩

/-- JS `s.startsWith(p)`. -/
def jsStartsWith (s p : String) : Bool := p.data.isPrefixOf s.data

/-- One item of an array-shaped `message.content` in a raw log line:
`{type:"text"}`, `{type:"tool_use"}`, `{type:"tool_result"}` or any other
`type` tag (ignored by both parsers).  Absent string fields are modelled
as `""`, matching the `|| ""` defaulting in the source; the structured
`input` payload of a `tool_use` is carried as an opaque string. -/
inductive ContentItem where
  | text (text : String)
  | toolUse (id name input : String)
  | toolResult (toolUseId content : String) (isError : Bool)
  | other
deriving DecidableEq

/-- `message.content`: either a (stringified) non-array value or an array
of typed items.  An absent content field stringifies to `""`. -/
inductive MsgContent where
  | str (s : String)
  | arr (items : List ContentItem)
deriving DecidableEq

/-- `message.usage` token counters (absent counters are `none`;
`usage` absent altogether is all-`none`, matching `|| {}`). -/
structure Usage where
  inputTokens : Option Nat
  outputTokens : Option Nat
  cacheReadInputTokens : Option Nat
deriving DecidableEq

/-- A successfully `JSON.parse`d log line: top-level `type` tag,
`message.role` (`""` when absent, matching the falsy check `!role`),
`message.content`, `timestamp` (`""` when absent), `message.usage` and
`message.model`. -/
structure Entry where
  type : String
  role : String
  content : MsgContent
  timestamp : String
  usage : Usage
  model : String
deriving DecidableEq

/-- One line of a session JSONL file. -/
inductive RawLine where
  | blank
  | malformed
  | entry (e : Entry)
deriving DecidableEq

namespace Embedder

/-- `ParsedMessage` of `embedder.ts`. -/
structure ParsedMessage where
  role : String
  content : String
  timestamp : String
  toolNames : List String
deriving DecidableEq

/-- `contentData.filter(i => i.type === "text").map(i => i.text || "").join(" ")`. -/
def userText (items : List ContentItem) : String :=
  String.intercalate " " (items.filterMap fun it =>
    match it with
    | .text t => some t
    | _ => none)

/-- Assistant text accumulation `text += (item.text || "") + " "`. -/
def assistantText (items : List ContentItem) : String :=
  String.join (items.filterMap fun it =>
    match it with
    | .text t => some (t ++ " ")
    | _ => none)

/-- `toolNames.push(item.name || "")` over the `tool_use` items. -/
def assistantToolNames (items : List ContentItem) : List String :=
  items.filterMap fun it =>
    match it with
    | .toolUse _ name _ => some name
    | _ => none

/-- One iteration of the `embedder.ts` parser loop: skip blank and
malformed lines, skip entries whose `type` is neither `user` nor
`assistant` or whose `role` is absent, and otherwise emit a message whose
`role` is copied from the line verbatim. -/
def parseLine (l : RawLine) : Option ParsedMessage :=
  match l with
  | .blank => none
  | .malformed => none
  | .entry e =>
    if e.type ≠ "user" ∧ e.type ≠ "assistant" then none
    else if e.role = "" then none
    else if e.role = "user" then
      match e.content with
      | .arr items =>
        some { role := e.role, content := jsTrim (userText items),
               timestamp := e.timestamp, toolNames := [] }
      | .str s =>
        some { role := e.role, content := jsTrim s,
               timestamp := e.timestamp, toolNames := [] }
    else if e.role = "assistant" then
      match e.content with
      | .arr items =>
        some { role := e.role, content := jsTrim (assistantText items),
               timestamp := e.timestamp, toolNames := assistantToolNames items }
      | .str _ =>
        some { role := e.role, content := jsTrim "",
               timestamp := e.timestamp, toolNames := [] }
    else
      some { role := e.role, content := jsTrim "",
             timestamp := e.timestamp, toolNames := [] }

/-- `parseSessionJsonl` of `embedder.ts`: the loop body is independent per
line (no cross-line state), hence a `filterMap`. -/
def parseSessionJsonl (lines : List RawLine) : List ParsedMessage :=
  lines.filterMap parseLine

/-- `const CHUNK_SIZE = 5`. -/
def CHUNK_SIZE : Nat := 5

/-- `const MAX_CHUNK_TEXT = 3000`. -/
def MAX_CHUNK_TEXT : Nat := 3000

/-- The per-message rendering inside `formatChunkText`:
`` `${prefix} ${m.content.slice(0, 600)}${tools}` ``. -/
def renderChunkMessage (m : ParsedMessage) : String :=
  let roleLabel := if m.role = "user" then "User:" else "Assistant:"
  let tools :=
    if m.toolNames.length > 0 then
      " [Tools: " ++ String.intercalate ", " m.toolNames ++ "]"
    else ""
  roleLabel ++ " " ++ jsSlice m.content 600 ++ tools

/-- `formatChunkText`: render each message, join with newlines, then
truncate the assembled result to `MAX_CHUNK_TEXT` characters. -/
def formatChunkText (messages : List ParsedMessage) : String :=
  jsSlice (String.intercalate "\n" (messages.map renderChunkMessage)) MAX_CHUNK_TEXT

/-- The turn-grouping loop of `chunkSession` (lines 620-630): a `user`
message arriving while the current turn is non-empty flushes the current
turn and starts a new one; a trailing non-empty turn is flushed at the
end. -/
def turnsGo (currentTurn : List ParsedMessage) : List ParsedMessage → List (List ParsedMessage)
  | [] => if currentTurn.isEmpty then [] else [currentTurn]
  | msg :: rest =>
    if msg.role = "user" ∧ ¬ currentTurn.isEmpty then
      currentTurn :: turnsGo [msg] rest
    else
      turnsGo (currentTurn ++ [msg]) rest

/-- Group messages into conversation turns. -/
def groupTurns (messages : List ParsedMessage) : List (List ParsedMessage) :=
  turnsGo [] messages

/-- `[...new Set(xs)]`: de-duplicate keeping first occurrences. -/
def dedupFirst (l : List String) : List String :=
  l.foldl (fun acc x => if x ∈ acc then acc else acc ++ [x]) []

/-- `Chunk` of `embedder.ts`. -/
structure Chunk where
  chunkIndex : Nat
  messages : List ParsedMessage
  text : String
  startTime : String
  endTime : String
  toolsUsed : List String
deriving DecidableEq

/-- Build one chunk from a group of turns, as both branches of
`chunkSession` do (`allMessages[0]?.timestamp || ""` etc.). -/
def mkChunk (chunkIndex : Nat) (group : List (List ParsedMessage)) : Chunk :=
  let allMessages := group.flatten
  { chunkIndex := chunkIndex
    messages := allMessages
    text := formatChunkText allMessages
    startTime := (allMessages.head?.map (·.timestamp)).getD ""
    endTime := ((allMessages.getLast?).map (·.timestamp)).getD ""
    toolsUsed := dedupFirst (allMessages.flatMap (·.toolNames)) }

/-- Fuel-driven recursion for `turnWindows`; the fuel (initially the list
length) strictly dominates the number of loop iterations, so the
`0, _ :: _` guard is never reached from `turnWindows`. -/
def turnWindowsGo {α : Type} : Nat → List α → List (List α)
  | _, [] => []
  | 0, _ :: _ => []
  | fuel + 1, x :: rest =>
    (x :: rest).take CHUNK_SIZE :: turnWindowsGo fuel ((x :: rest).drop CHUNK_SIZE)

/-- The slicing loop `for (let i = 0; i < turns.length; i += CHUNK_SIZE)
turns.slice(i, i + CHUNK_SIZE)`. -/
def turnWindows {α : Type} (turns : List α) : List (List α) :=
  turnWindowsGo turns.length turns

/-- `chunks.push({chunkIndex: chunks.length, ...})`: the chunk index is
the number of chunks already emitted. -/
def buildChunks (idx : Nat) : List (List (List ParsedMessage)) → List Chunk
  | [] => []
  | g :: gs => mkChunk idx g :: buildChunks (idx + 1) gs

/-- `chunkSession` of `embedder.ts`: a session of at most `CHUNK_SIZE`
turns becomes a single chunk; otherwise turns are sliced into windows of
`CHUNK_SIZE`. -/
def chunkSession (messages : List ParsedMessage) : List Chunk :=
  let turns := groupTurns messages
  if turns.length ≤ CHUNK_SIZE then
    [mkChunk 0 turns]
  else
    buildChunks 0 (turnWindows turns)

/-- The Ollama embedding endpoint's response as `embedText` inspects it:
HTTP success flag, status code, and the optional `embedding` field of the
parsed JSON body. -/
structure EmbedResponse (α : Type) where
  ok : Bool
  status : Nat
  embedding : Option (List α)
deriving DecidableEq

/-- `embedText` of `embedder.ts` (lines 702-712): throw on a non-success
HTTP status (`if (!response.ok)`), throw on a missing `embedding` field
(`if (!data.embedding)`), otherwise return the vector.  Thrown errors are
the `Except.error` branch. -/
def embedText {α : Type} (resp : EmbedResponse α) : Except String (List α) :=
  if !resp.ok then .error ("Ollama error: " ++ toString resp.status)
  else
    match resp.embedding with
    | none => .error "No embedding in response"
    | some v => .ok v

/-- One content block of a streamed Agent-SDK message. -/
inductive AgentBlock where
  | text (text : String)
  | other
deriving DecidableEq

/-- One streamed Agent-SDK message: its `type` tag and content blocks. -/
structure AgentMessage where
  type : String
  blocks : List AgentBlock
deriving DecidableEq

/-- The prompt `summarizeChunk` sends to the summarization service. -/
def summarizePrompt (text : String) : String :=
  "Summarize this Claude Code conversation segment in 2-3 sentences. Focus on: what task was being done, what tools were used, what was the outcome.\n\n" ++ text

/-- `summary += block.text` over the `text` blocks of `assistant`-typed
streamed messages. -/
def collectAssistantText (stream : List AgentMessage) : String :=
  String.join ((stream.filter (fun m => m.type == "assistant")).flatMap fun m =>
    m.blocks.filterMap fun b =>
      match b with
      | .text t => some t
      | .other => none)

/-- `summarizeChunk` of `embedder.ts`: the external service is a function
from the prompt to the streamed messages it delivered together with an
optional error (`some` = the `await` loop threw, possibly mid-stream).
Any error is caught and converted into the fallback `text.slice(0, 200)`;
otherwise the collected summary is trimmed and returned. -/
def summarizeChunk (service : String → List AgentMessage × Option String)
    (text : String) : String :=
  let result := service (summarizePrompt text)
  match result.2 with
  | some _ => jsSlice text 200
  | none => jsTrim (collectAssistantText result.1)

/-- A row of the `session_chunks` table, restricted to the columns
`searchSessions` reads.  The embedding carrier is abstract; `Int` scalars
stand in for the reals since the cosine distance is uninterpreted. -/
structure ChunkRow where
  session_id : String
  chunk_index : Nat
  summary : String
  raw_excerpt : Option String
  embedding_vec : Option (List Int)
  tools_used : List String
  project : String
  classification : Option String
deriving DecidableEq

/-- One element of the `matches` array `searchSessions` returns. -/
structure SearchMatch where
  session_id : String
  chunk_index : Nat
  summary : String
  excerpt : Option String
  tools_used : List String
  project : String
  classification : Option String
  similarity : Int
deriving DecidableEq

/-- The row projection of `searchSessions`: copy the stored columns,
truncate the excerpt to 300 characters, and report similarity as
`1 - (embedding_vec <=> query)`. -/
def projectRow (dist : List Int → List Int → Int) (queryVec : List Int)
    (r : ChunkRow) : SearchMatch :=
  { session_id := r.session_id
    chunk_index := r.chunk_index
    summary := r.summary
    excerpt := r.raw_excerpt.map (fun s => jsSlice s 300)
    tools_used := r.tools_used
    project := r.project
    classification := r.classification
    similarity := 1 - dist (r.embedding_vec.getD []) queryVec }

/-- `ORDER BY embedding_vec <=> $1` as a preorder on rows: smaller
distance to the query vector ranks earlier. -/
def rowLE (dist : List Int → List Int → Int) (queryVec : List Int)
    (a b : ChunkRow) : Prop :=
  dist (a.embedding_vec.getD []) queryVec ≤ dist (b.embedding_vec.getD []) queryVec

instance (dist : List Int → List Int → Int) (queryVec : List Int) :
    DecidableRel (rowLE dist queryVec) :=
  fun _ _ => Int.decLe _ _

/-- The pgvector query of `searchSessions` (`tools.ts` lines 225-243):
`WHERE embedding_vec IS NOT NULL ORDER BY embedding_vec <=> $1 LIMIT $2`,
embedded as filter / sort (a stable sort models the unspecified tie order
of `ORDER BY`) by the abstract cosine distance `dist` to the query vector
/ take, followed by the row projection. -/
def searchSessions (dist : List Int → List Int → Int) (table : List ChunkRow)
    (queryVec : List Int) (maxResults : Nat) : List SearchMatch :=
  let populated := table.filter (fun r => r.embedding_vec.isSome)
  let ordered := populated.insertionSort (rowLE dist queryVec)
  (ordered.take maxResults).map (projectRow dist queryVec)

/-- `if (processed >= maxSessions) break`; `maxSessions` is `Infinity`
(`none`) unless `--limit` is given. -/
def capReached (maxSessions : Option Nat) (processed : Nat) : Bool :=
  match maxSessions with
  | none => false
  | some n => n ≤ processed

/-- What one processing attempt of a session deterministically does:
the chunk records it inserts (possibly a strict prefix when an error
occurs mid-session) and whether it counts as processed (`processed++`
is only reached when no error was thrown). -/
structure SessionOutcome (ρ : Type) where
  inserted : List ρ
  success : Bool

/-- The session loop of `main` in `embedder.ts` (lines 826-929): stop at
the processing cap, skip sessions already embedded, skip `agent-`-prefixed
sub-agent sessions, otherwise run the parse/chunk/summarize/embed/insert
attempt and append its records to the table. -/
def runPipelineGo {ρ : Type} (recs : String → SessionOutcome ρ)
    (maxSessions : Option Nat) (embeddedIds : List String) :
    List (String × ρ) → Nat → List String → List (String × ρ)
  | table, _, [] => table
  | table, processed, sessionId :: rest =>
    if capReached maxSessions processed then table
    else if sessionId ∈ embeddedIds then
      runPipelineGo recs maxSessions embeddedIds table processed rest
    else if jsStartsWith sessionId "agent-" then
      runPipelineGo recs maxSessions embeddedIds table processed rest
    else
      runPipelineGo recs maxSessions embeddedIds
        (table ++ (recs sessionId).inserted.map (fun r => (sessionId, r)))
        (processed + if (recs sessionId).success then 1 else 0) rest

/-- One batch run of `main`: `embeddedIds` is the distinct session ids of
the current table, or empty under `--force`
(`force ? new Set() : await getEmbeddedSessionIds(pool)`). -/
def runPipeline {ρ : Type} (recs : String → SessionOutcome ρ) (force : Bool)
    (maxSessions : Option Nat) (files : List String)
    (table : List (String × ρ)) : List (String × ρ) :=
  let embeddedIds := if force then [] else table.map (·.1)
  runPipelineGo recs maxSessions embeddedIds table 0 files

/-- The records a run with `--force` inserts for the given candidate
files: every non-`agent-` session contributes its full record set. -/
def forcedRecords {ρ : Type} (recs : String → SessionOutcome ρ)
    (files : List String) : List (String × ρ) :=
  files.flatMap fun sessionId =>
    if jsStartsWith sessionId "agent-" then []
    else (recs sessionId).inserted.map (fun r => (sessionId, r))

end Embedder

namespace Tools

/-- One entry of a `ParsedMessage.toolCalls` array in `tools.ts`:
created unresolved (`result: "", isError: false`) by a `tool_use` item. -/
structure ToolCall where
  name : String
  input : String
  result : String
  isError : Bool
deriving DecidableEq

/-- `ParsedMessage` of `tools.ts`. -/
structure ParsedMessage where
  role : String
  content : String
  timestamp : String
  toolCalls : List ToolCall
  tokens : Usage
  model : String
deriving DecidableEq

/-- The `pendingToolCalls : Map<string, …>` of the parser.  In the
source the map holds object references shared with the already-pushed
messages; here it holds the location `(message index, tool-call index)`
of the invocation record inside the message list. -/
abbrev Pending := List (String × Nat × Nat)

/-- `Map.prototype.set` (overwrites an existing key). -/
def pendingSet (m : Pending) (key : String) (loc : Nat × Nat) : Pending :=
  m.filter (fun p => p.1 != key) ++ [(key, loc)]

/-- `Map.prototype.get`. -/
def pendingGet (m : Pending) (key : String) : Option (Nat × Nat) :=
  (m.find? (fun p => p.1 == key)).map (·.2)

/-- `Map.prototype.delete`. -/
def pendingDel (m : Pending) (key : String) : Pending :=
  m.filter (fun p => p.1 != key)

/-- Replace the element at an index (identity when out of range). -/
def listModify {α : Type} : List α → Nat → (α → α) → List α
  | [], _, _ => []
  | x :: xs, 0, f => f x :: xs
  | x :: xs, n + 1, f => x :: listModify xs n f

/-- `pending.result = String(item.content || "").slice(0, 500);
pending.isError = item.is_error || false`. -/
def resolveToolCall (tc : ToolCall) (content : String) (isError : Bool) : ToolCall :=
  { tc with result := jsSlice content 500, isError := isError }

/-- Apply a tool result to the invocation record at the given location
(the in-place mutation of the shared object in the source). -/
def resolveAt (msgs : List ParsedMessage) (mi ti : Nat) (content : String)
    (isError : Bool) : List ParsedMessage :=
  listModify msgs mi fun m =>
    { m with toolCalls :=
        listModify m.toolCalls ti (fun tc => resolveToolCall tc content isError) }

/-- Intermediate parser state: the messages pushed so far and the pending
tool-call map. -/
structure PState where
  msgs : List ParsedMessage
  pending : Pending
deriving DecidableEq

/-- The `tool_result` pass over a user message's content items: a result
whose `tool_use_id` is in the pending map resolves that invocation and
removes the map entry; any other item is ignored. -/
def resolveItem (s : PState) (it : ContentItem) : PState :=
  match it with
  | .toolResult toolUseId content isError =>
    match pendingGet s.pending toolUseId with
    | some (mi, ti) =>
      { msgs := resolveAt s.msgs mi ti content isError
        pending := pendingDel s.pending toolUseId }
    | none => s
  | _ => s

/-- `contentData.filter(i => i.type === "text").map(i => i.text || "").join(" ")`. -/
def userText (items : List ContentItem) : String :=
  String.intercalate " " (items.filterMap fun it =>
    match it with
    | .text t => some t
    | _ => none)

/-- The assistant-branch item loop: accumulate text parts and tool calls,
and register each `tool_use` in the pending map under its `id` at location
`(mi, toolCalls.length)`, where `mi` is the index the assistant message
will be pushed at. -/
def asstItems (mi : Nat) : List ContentItem → List String → List ToolCall → Pending →
    List String × List ToolCall × Pending
  | [], texts, tcs, pend => (texts, tcs, pend)
  | .text t :: rest, texts, tcs, pend => asstItems mi rest (texts ++ [t]) tcs pend
  | .toolUse id name input :: rest, texts, tcs, pend =>
    asstItems mi rest texts
      (tcs ++ [{ name := name, input := input, result := "", isError := false }])
      (pendingSet pend id (mi, tcs.length))
  | .toolResult _ _ _ :: rest, texts, tcs, pend => asstItems mi rest texts tcs pend
  | .other :: rest, texts, tcs, pend => asstItems mi rest texts tcs pend

/-- One iteration of the `tools.ts` parser loop (lines 125-195). -/
def stepLine (s : PState) (l : RawLine) : PState :=
  match l with
  | .blank => s
  | .malformed => s
  | .entry e =>
    if e.type ≠ "user" ∧ e.type ≠ "assistant" then s
    else if e.role = "" then s
    else if e.role = "user" then
      match e.content with
      | .arr items =>
        let s' := items.foldl resolveItem s
        { s' with msgs := s'.msgs ++
            [{ role := "user", content := userText items, timestamp := e.timestamp,
               toolCalls := [], tokens := ⟨none, none, none⟩, model := "" }] }
      | .str str =>
        { s with msgs := s.msgs ++
            [{ role := "user", content := str, timestamp := e.timestamp,
               toolCalls := [], tokens := ⟨none, none, none⟩, model := "" }] }
    else if e.role = "assistant" then
      match e.content with
      | .arr items =>
        let res := asstItems s.msgs.length items [] [] s.pending
        { msgs := s.msgs ++
            [{ role := "assistant", content := String.intercalate " " res.1,
               timestamp := e.timestamp, toolCalls := res.2.1,
               tokens := e.usage, model := e.model }]
          pending := res.2.2 }
      | .str _ =>
        { s with msgs := s.msgs ++
            [{ role := "assistant", content := "", timestamp := e.timestamp,
               toolCalls := [], tokens := e.usage, model := e.model }] }
    else s

/-- `parseSessionJsonl` of `tools.ts` (lines 121-198). -/
def parseSessionJsonl (lines : List RawLine) : List ParsedMessage :=
  (lines.foldl stepLine ⟨[], []⟩).msgs

/-- The item is a `tool_use` with the given invocation id. -/
def itemIsToolUseId (t : String) : ContentItem → Bool
  | .toolUse id _ _ => id == t
  | _ => false

/-- The item is a `tool_result` referencing the given invocation id. -/
def itemIsToolResultId (t : String) : ContentItem → Bool
  | .toolResult tid _ _ => tid == t
  | _ => false

/-- The raw line contains a `tool_use` item with the given id. -/
def lineHasToolUseId (t : String) : RawLine → Bool
  | .entry e =>
    match e.content with
    | .arr items => items.any (itemIsToolUseId t)
    | .str _ => false
  | _ => false

/-- The raw line contains a `tool_result` item with the given id. -/
def lineHasToolResultId (t : String) : RawLine → Bool
  | .entry e =>
    match e.content with
    | .arr items => items.any (itemIsToolResultId t)
    | .str _ => false
  | _ => false

/-- Number of `tool_use` items in an item list (the tool-call index our
tracked invocation ends up at). -/
def countToolUses (items : List ContentItem) : Nat :=
  (items.filter fun it =>
    match it with
    | .toolUse _ _ _ => true
    | _ => false).length

/-- Tool-call slot `(mi, ti)` of the message list holds the invocation
record `tc`, inside an assistant message. -/
def SlotIs (msgs : List ParsedMessage) (mi ti : Nat) (tc : ToolCall) : Prop :=
  ∃ m, msgs[mi]? = some m ∧ m.role = "assistant" ∧ m.toolCalls[ti]? = some tc

/-- The state tracks a still-pending invocation `t` living at slot
`(mi, ti)` with invocation record `tc`: the pending map sends `t` there,
no other key points at that slot, and the slot holds `tc` inside an
assistant message. -/
def Tracks (s : PState) (t : String) (mi ti : Nat) (tc : ToolCall) : Prop :=
  pendingGet s.pending t = some (mi, ti)
  ∧ (∀ p ∈ s.pending, p.2 = (mi, ti) → p.1 = t)
  ∧ SlotIs s.msgs mi ti tc

/-- The slot `(mi, ti)` holds the fixed invocation record `tc` and no
pending entry points at it any more (so no later line can modify it). -/
def Holds (s : PState) (mi ti : Nat) (tc : ToolCall) : Prop :=
  (∀ p ∈ s.pending, p.2 ≠ (mi, ti))
  ∧ SlotIs s.msgs mi ti tc

/-- Every pending entry points into the already-pushed messages. -/
def PendingBound (s : PState) : Prop :=
  ∀ p ∈ s.pending, p.2.1 < s.msgs.length

end Tools

/-! ## General helper lemmas -/

theorem jsSlice_length_le (s : String) (n : Nat) : (jsSlice s n).length ≤ n := by
  show (s.data.take n).length ≤ n
  rw [List.length_take]
  omega

theorem jsSlice_of_le (s : String) (n : Nat) (h : s.length ≤ n) : jsSlice s n = s := by
  cases s with
  | mk d =>
    show String.mk (d.take n) = String.mk d
    rw [List.take_of_length_le h]

namespace Embedder

/-! ## Turn grouping -/

theorem turnsGo_flatten :
    ∀ (msgs cur : List ParsedMessage), (turnsGo cur msgs).flatten = cur ++ msgs := by
  intro msgs
  induction msgs with
  | nil =>
    intro cur
    cases cur with
    | nil => simp [turnsGo]
    | cons a l => simp [turnsGo]
  | cons m rest ih =>
    intro cur
    rw [turnsGo]
    split
    · simp [ih]
    · rw [ih]
      simp

theorem turnsGo_ne_nil :
    ∀ (msgs cur : List ParsedMessage), ∀ t ∈ turnsGo cur msgs, t ≠ [] := by
  intro msgs
  induction msgs with
  | nil =>
    intro cur t ht
    by_cases h : cur.isEmpty
    · simp [turnsGo, h] at ht
    · simp [turnsGo, h] at ht
      subst ht
      intro hnil
      rw [hnil] at h
      simp at h
  | cons m rest ih =>
    intro cur t ht
    rw [turnsGo] at ht
    split at ht
    · next h =>
      rcases List.mem_cons.mp ht with h1 | h2
      · subst h1
        intro hnil
        rw [hnil] at h
        simp at h
      · exact ih [m] t h2
    · exact ih (cur ++ [m]) t ht

theorem turnsGo_tail_no_user :
    ∀ (msgs cur : List ParsedMessage), (∀ m ∈ cur.drop 1, m.role ≠ "user") →
      ∀ t ∈ turnsGo cur msgs, ∀ m ∈ t.drop 1, m.role ≠ "user" := by
  intro msgs
  induction msgs with
  | nil =>
    intro cur hcur t ht
    by_cases h : cur.isEmpty
    · simp [turnsGo, h] at ht
    · simp [turnsGo, h] at ht
      subst ht
      exact hcur
  | cons m rest ih =>
    intro cur hcur t ht
    rw [turnsGo] at ht
    split at ht
    · next h =>
      rcases List.mem_cons.mp ht with h1 | h2
      · subst h1
        exact hcur
      · exact ih [m] (by simp) t h2
    · next h =>
      refine ih (cur ++ [m]) ?_ t ht
      cases cur with
      | nil => simp
      | cons a l =>
        intro x hx
        rw [List.cons_append, List.drop_one, List.tail_cons] at hx
        rcases List.mem_append.mp hx with hxl | hxm
        · exact hcur x (by simpa using hxl)
        · have hm : m.role ≠ "user" := by
            rcases not_and_or.mp h with h' | h'
            · exact h'
            · simp at h'
          simp at hxm
          subst hxm
          exact hm

/-! ## Turn windows -/

theorem turnWindowsGo_congr {α : Type} :
    ∀ (f1 : Nat) (l : List α) (f2 : Nat), l.length ≤ f1 → l.length ≤ f2 →
      turnWindowsGo f1 l = turnWindowsGo f2 l := by
  intro f1
  induction f1 with
  | zero =>
    intro l f2 h1 h2
    have : l = [] := List.eq_nil_of_length_eq_zero (by omega)
    subst this
    cases f2 <;> rfl
  | succ f1 ih =>
    intro l f2 h1 h2
    cases l with
    | nil => cases f2 <;> rfl
    | cons x rest =>
      cases f2 with
      | zero => simp at h2
      | succ f2 =>
        show (x :: rest).take CHUNK_SIZE :: turnWindowsGo f1 ((x :: rest).drop CHUNK_SIZE)
            = (x :: rest).take CHUNK_SIZE :: turnWindowsGo f2 ((x :: rest).drop CHUNK_SIZE)
        congr 1
        apply ih
        · rw [List.length_drop]
          simp only [List.length_cons, CHUNK_SIZE]
          simp only [List.length_cons] at h1
          omega
        · rw [List.length_drop]
          simp only [List.length_cons, CHUNK_SIZE]
          simp only [List.length_cons] at h2
          omega

theorem turnWindows_eq {α : Type} (l : List α) :
    turnWindows l =
      if l.isEmpty then [] else l.take CHUNK_SIZE :: turnWindows (l.drop CHUNK_SIZE) := by
  cases l with
  | nil => rfl
  | cons x rest =>
    show (x :: rest).take CHUNK_SIZE :: turnWindowsGo rest.length ((x :: rest).drop CHUNK_SIZE)
        = (x :: rest).take CHUNK_SIZE :: turnWindows ((x :: rest).drop CHUNK_SIZE)
    congr 1
    apply turnWindowsGo_congr
    · rw [List.length_drop]
      simp only [List.length_cons, CHUNK_SIZE]
      omega
    · exact Nat.le_refl _

theorem turnWindows_length_aux {α : Type} :
    ∀ (n : Nat) (l : List α), l.length ≤ n →
      (turnWindows l).length = (l.length + 4) / 5 := by
  intro n
  induction n with
  | zero =>
    intro l h
    have : l = [] := List.eq_nil_of_length_eq_zero (by omega)
    subst this
    rw [turnWindows_eq]
    simp
  | succ n ih =>
    intro l h
    cases l with
    | nil =>
      rw [turnWindows_eq]
      simp
    | cons x rest =>
      rw [turnWindows_eq]
      simp only [List.isEmpty_cons, Bool.false_eq_true, if_false, List.length_cons]
      have hlen : ((x :: rest).drop CHUNK_SIZE).length ≤ n := by
        rw [List.length_drop]
        simp only [List.length_cons, CHUNK_SIZE]
        simp only [List.length_cons] at h
        omega
      rw [ih _ hlen]
      rw [List.length_drop]
      simp only [List.length_cons, CHUNK_SIZE]
      omega

theorem turnWindows_length {α : Type} (l : List α) :
    (turnWindows l).length = (l.length + 4) / 5 :=
  turnWindows_length_aux l.length l (Nat.le_refl _)

theorem turnWindows_getElem? {α : Type} :
    ∀ (i : Nat) (l : List α),
      (turnWindows l)[i]? =
        if (l.drop (5 * i)).isEmpty then none else some ((l.drop (5 * i)).take 5) := by
  intro i
  induction i with
  | zero =>
    intro l
    rw [turnWindows_eq]
    cases l with
    | nil => simp
    | cons x rest => simp [CHUNK_SIZE]
  | succ i ih =>
    intro l
    rw [turnWindows_eq]
    cases l with
    | nil => simp
    | cons x rest =>
      simp only [List.isEmpty_cons, Bool.false_eq_true, if_false, List.getElem?_cons_succ]
      rw [ih]
      have hdd : ((x :: rest).drop CHUNK_SIZE).drop (5 * i) = (x :: rest).drop (5 * (i + 1)) := by
        rw [List.drop_drop]
        congr 1
        simp only [CHUNK_SIZE]
        ring
      rw [hdd]

theorem turnWindows_ne_nil {α : Type} (l : List α) (h : l ≠ []) : turnWindows l ≠ [] := by
  rw [turnWindows_eq]
  cases l with
  | nil => exact absurd rfl h
  | cons x rest => simp

/-! ## Chunk building -/

theorem buildChunks_length : ∀ (gs : List (List (List ParsedMessage))) (i : Nat),
    (buildChunks i gs).length = gs.length := by
  intro gs
  induction gs with
  | nil => intro i; rfl
  | cons g gs ih => intro i; simp [buildChunks, ih]

theorem buildChunks_getElem? :
    ∀ (gs : List (List (List ParsedMessage))) (i j : Nat),
      (buildChunks i gs)[j]? = gs[j]?.map (fun g => mkChunk (i + j) g) := by
  intro gs
  induction gs with
  | nil => intro i j; simp [buildChunks]
  | cons g gs ih =>
    intro i j
    cases j with
    | zero => simp [buildChunks]
    | succ j =>
      simp only [buildChunks, List.getElem?_cons_succ]
      have harith : i + (j + 1) = (i + 1) + j := by omega
      rw [harith]
      exact ih (i + 1) j

end Embedder

/-! ## Claims C2, C1, C10: turn partition and chunking -/

/-- Claim C2: the turn grouping performed by `chunkSession` partitions the
parsed message sequence exactly: concatenating all turns in order
reproduces the original message order (no gaps, no overlaps), every turn
is non-empty, and no turn contains a user-role message after its first
message (a user message arriving while the current turn is non-empty
always begins a new turn). -/
theorem groupTurns_partition (msgs : List Embedder.ParsedMessage) :
    (Embedder.groupTurns msgs).flatten = msgs
    ∧ (∀ t ∈ Embedder.groupTurns msgs, t ≠ [])
    ∧ (∀ t ∈ Embedder.groupTurns msgs, ∀ m ∈ t.drop 1, m.role ≠ "user") := by
  refine ⟨?_, ?_, ?_⟩
  · simpa using Embedder.turnsGo_flatten msgs []
  · exact Embedder.turnsGo_ne_nil msgs []
  · exact Embedder.turnsGo_tail_no_user msgs [] (by simp)

/-- Witness for C2 on a concrete three-message log. -/
theorem groupTurns_partition_witness :
    (Embedder.groupTurns
        [⟨"user", "a", "", []⟩, ⟨"assistant", "b", "", []⟩, ⟨"user", "c", "", []⟩]).flatten
      = [⟨"user", "a", "", []⟩, ⟨"assistant", "b", "", []⟩, ⟨"user", "c", "", []⟩]
    ∧ (∀ t ∈ Embedder.groupTurns
        [⟨"user", "a", "", []⟩, ⟨"assistant", "b", "", []⟩, ⟨"user", "c", "", []⟩], t ≠ [])
    ∧ (∀ t ∈ Embedder.groupTurns
        [⟨"user", "a", "", []⟩, ⟨"assistant", "b", "", []⟩, ⟨"user", "c", "", []⟩],
        ∀ m ∈ t.drop 1, m.role ≠ "user") :=
  groupTurns_partition _

/-- Claim C1: with `N` the number of turns, `chunkSession` yields exactly
one chunk holding every message when `N ≤ CHUNK_SIZE`; when
`N > CHUNK_SIZE` it yields `⌈N / CHUNK_SIZE⌉` chunks, the `i`-th chunk is
built from the `i`-th window of turns, every window except possibly the
last holds exactly `CHUNK_SIZE` turns, and the chunk indices are
`0 .. count-1`, contiguous and in turn order. -/
theorem chunkSession_chunk_counts (msgs : List Embedder.ParsedMessage) :
    ((Embedder.groupTurns msgs).length ≤ Embedder.CHUNK_SIZE →
      ∃ c, Embedder.chunkSession msgs = [c] ∧ c.chunkIndex = 0 ∧ c.messages = msgs)
    ∧ (Embedder.CHUNK_SIZE < (Embedder.groupTurns msgs).length →
        (Embedder.chunkSession msgs).length = ((Embedder.groupTurns msgs).length + 4) / 5
        ∧ ∀ i c, (Embedder.chunkSession msgs)[i]? = some c →
            c.chunkIndex = i
            ∧ ∃ w, (Embedder.turnWindows (Embedder.groupTurns msgs))[i]? = some w
                ∧ c.messages = w.flatten
                ∧ (i + 1 < (Embedder.chunkSession msgs).length →
                    w.length = Embedder.CHUNK_SIZE))
    ∧ (Embedder.chunkSession msgs).map (fun c => c.chunkIndex)
        = List.range (Embedder.chunkSession msgs).length := by
  refine ⟨?_, ?_, ?_⟩
  · intro hle
    refine ⟨Embedder.mkChunk 0 (Embedder.groupTurns msgs), ?_, rfl, ?_⟩
    · unfold Embedder.chunkSession
      rw [if_pos hle]
    · show (Embedder.groupTurns msgs).flatten = msgs
      simpa using Embedder.turnsGo_flatten msgs []
  · intro hgt
    have hcs : Embedder.chunkSession msgs
        = Embedder.buildChunks 0 (Embedder.turnWindows (Embedder.groupTurns msgs)) := by
      unfold Embedder.chunkSession
      rw [if_neg (by omega)]
    constructor
    · rw [hcs, Embedder.buildChunks_length, Embedder.turnWindows_length]
    · intro i c hc
      rw [hcs, Embedder.buildChunks_getElem?] at hc
      simp only [Nat.zero_add] at hc
      rcases Option.map_eq_some'.mp hc with ⟨w, hw, hcw⟩
      subst hcw
      refine ⟨rfl, w, hw, rfl, ?_⟩
      intro hlast
      rw [hcs, Embedder.buildChunks_length, Embedder.turnWindows_length] at hlast
      rw [Embedder.turnWindows_getElem?] at hw
      by_cases hemp : ((Embedder.groupTurns msgs).drop (5 * i)).isEmpty
      · rw [if_pos hemp] at hw
        simp at hw
      · rw [if_neg hemp] at hw
        have hw' : ((Embedder.groupTurns msgs).drop (5 * i)).take 5 = w :=
          Option.some.inj hw
        subst hw'
        show (((Embedder.groupTurns msgs).drop (5 * i)).take 5).length
            = Embedder.CHUNK_SIZE
        simp only [List.length_take, List.length_drop, Embedder.CHUNK_SIZE, inf_eq_min]
        omega
  · apply List.ext_getElem?
    intro i
    rw [List.getElem?_map]
    by_cases hi : i < (Embedder.chunkSession msgs).length
    · rw [List.getElem?_range hi]
      by_cases hle : (Embedder.groupTurns msgs).length ≤ Embedder.CHUNK_SIZE
      · have h1 : Embedder.chunkSession msgs
            = [Embedder.mkChunk 0 (Embedder.groupTurns msgs)] := by
          unfold Embedder.chunkSession
          rw [if_pos hle]
        rw [h1] at hi ⊢
        have hi0 : i = 0 := Nat.lt_one_iff.mp (by simpa using hi)
        subst hi0
        simp [Embedder.mkChunk]
      · have hcs : Embedder.chunkSession msgs
            = Embedder.buildChunks 0 (Embedder.turnWindows (Embedder.groupTurns msgs)) := by
          unfold Embedder.chunkSession
          rw [if_neg hle]
        rw [hcs] at hi ⊢
        rw [Embedder.buildChunks_length] at hi
        rw [Embedder.buildChunks_getElem?, List.getElem?_eq_getElem hi]
        simp [Embedder.mkChunk]
    · rw [List.getElem?_eq_none (Nat.le_of_not_lt hi),
        List.getElem?_eq_none (by simpa using Nat.le_of_not_lt hi)]
      rfl

/-- Witness for C1: a 12-turn session chunks into 3 windows of 5, 5 and 2
turns, and a 3-turn session collapses into one chunk. -/
theorem chunkSession_chunk_counts_witness :
    (Embedder.CHUNK_SIZE <
        (Embedder.groupTurns ((List.range 12).map
          (fun i => ⟨"user", toString i, "", []⟩))).length
      ∧ ((Embedder.groupTurns ((List.range 12).map
          (fun i => ⟨"user", toString i, "", []⟩))).length ≤ Embedder.CHUNK_SIZE →
        ∃ c, Embedder.chunkSession ((List.range 12).map
            (fun i => ⟨"user", toString i, "", []⟩)) = [c]
          ∧ c.chunkIndex = 0
          ∧ c.messages = (List.range 12).map (fun i => ⟨"user", toString i, "", []⟩))
      ∧ (Embedder.CHUNK_SIZE < (Embedder.groupTurns ((List.range 12).map
            (fun i => ⟨"user", toString i, "", []⟩))).length →
          (Embedder.chunkSession ((List.range 12).map
              (fun i => ⟨"user", toString i, "", []⟩))).length
            = ((Embedder.groupTurns ((List.range 12).map
                (fun i => ⟨"user", toString i, "", []⟩))).length + 4) / 5
          ∧ ∀ i c, (Embedder.chunkSession ((List.range 12).map
              (fun i => ⟨"user", toString i, "", []⟩)))[i]? = some c →
              c.chunkIndex = i
              ∧ ∃ w, (Embedder.turnWindows (Embedder.groupTurns ((List.range 12).map
                    (fun i => ⟨"user", toString i, "", []⟩))))[i]? = some w
                  ∧ c.messages = w.flatten
                  ∧ (i + 1 < (Embedder.chunkSession ((List.range 12).map
                      (fun i => ⟨"user", toString i, "", []⟩))).length →
                      w.length = Embedder.CHUNK_SIZE))
      ∧ (Embedder.chunkSession ((List.range 12).map
            (fun i => ⟨"user", toString i, "", []⟩))).map (fun c => c.chunkIndex)
          = List.range (Embedder.chunkSession ((List.range 12).map
              (fun i => ⟨"user", toString i, "", []⟩))).length) :=
  ⟨by decide, chunkSession_chunk_counts _⟩

/-- Claim C10: `chunkSession` applied to the empty message sequence still
returns exactly one chunk, with index `0`, no messages, empty text, empty
timestamps and an empty tool set; and it never returns an empty chunk
list for any input. -/
theorem chunkSession_nonempty :
    Embedder.chunkSession []
      = [{ chunkIndex := 0, messages := [], text := "", startTime := "",
           endTime := "", toolsUsed := [] }]
    ∧ ∀ msgs, Embedder.chunkSession msgs ≠ [] := by
  constructor
  · decide
  · intro msgs
    unfold Embedder.chunkSession
    by_cases hle : (Embedder.groupTurns msgs).length ≤ Embedder.CHUNK_SIZE
    · rw [if_pos hle]; simp
    · rw [if_neg hle]
      intro hnil
      have h1 : (Embedder.buildChunks 0
          (Embedder.turnWindows (Embedder.groupTurns msgs))).length = 0 := by
        rw [hnil]; rfl
      rw [Embedder.buildChunks_length, Embedder.turnWindows_length] at h1
      omega

/-- Witness for C10 on a concrete non-empty input. -/
theorem chunkSession_nonempty_witness :
    Embedder.chunkSession [⟨"user", "a", "", []⟩] ≠ [] :=
  chunkSession_nonempty.2 _

/-! ## Claim C8: chunk text formatting -/

/-- Claim C8: `formatChunkText` renders each message as its role label
(`User:` / `Assistant:`) followed by the first 600 characters of its
content, with a `[Tools: ...]` suffix exactly when the message has tool
names, joins the renderings with newlines, and truncates the assembled
result to `MAX_CHUNK_TEXT = 3000` characters — the output length is
always at most 3000, and when the assembled text already fits, it is
returned unchanged (truncation happens only after assembly). -/
theorem formatChunkText_spec :
    (∀ msgs, (Embedder.formatChunkText msgs).length ≤ Embedder.MAX_CHUNK_TEXT)
    ∧ (∀ msgs,
        (String.intercalate "\n" (msgs.map Embedder.renderChunkMessage)).length
            ≤ Embedder.MAX_CHUNK_TEXT →
        Embedder.formatChunkText msgs
          = String.intercalate "\n" (msgs.map Embedder.renderChunkMessage))
    ∧ (∀ m : Embedder.ParsedMessage, m.toolNames = [] →
        Embedder.renderChunkMessage m
          = (if m.role = "user" then "User:" else "Assistant:") ++ " "
              ++ jsSlice m.content 600)
    ∧ (∀ m : Embedder.ParsedMessage, m.toolNames ≠ [] →
        Embedder.renderChunkMessage m
          = (if m.role = "user" then "User:" else "Assistant:") ++ " "
              ++ jsSlice m.content 600
              ++ (" [Tools: " ++ String.intercalate ", " m.toolNames ++ "]")) := by
  refine ⟨?_, ?_, ?_, ?_⟩
  · intro msgs
    exact jsSlice_length_le _ _
  · intro msgs h
    exact jsSlice_of_le _ _ h
  · intro m h
    simp [Embedder.renderChunkMessage, h]
  · intro m h
    have hp : 0 < m.toolNames.length := List.length_pos.mpr h
    simp only [Embedder.renderChunkMessage, gt_iff_lt, hp, if_true]

/-- Witness for C8: concrete renderings with and without tools, and the
no-truncation case on a short chunk. -/
theorem formatChunkText_spec_witness :
    ((String.intercalate "\n"
        ([⟨"user", "hi", "", []⟩].map Embedder.renderChunkMessage)).length
          ≤ Embedder.MAX_CHUNK_TEXT
      ∧ Embedder.formatChunkText [⟨"user", "hi", "", []⟩]
          = String.intercalate "\n"
              ([⟨"user", "hi", "", []⟩].map Embedder.renderChunkMessage))
    ∧ ((⟨"user", "hi", "", []⟩ : Embedder.ParsedMessage).toolNames = []
      ∧ Embedder.renderChunkMessage ⟨"user", "hi", "", []⟩
          = (if ("user" : String) = "user" then "User:" else "Assistant:") ++ " "
              ++ jsSlice "hi" 600)
    ∧ ((⟨"assistant", "y", "", ["Read", "Bash"]⟩ : Embedder.ParsedMessage).toolNames ≠ []
      ∧ Embedder.renderChunkMessage ⟨"assistant", "y", "", ["Read", "Bash"]⟩
          = (if ("assistant" : String) = "user" then "User:" else "Assistant:") ++ " "
              ++ jsSlice "y" 600
              ++ (" [Tools: " ++ String.intercalate ", " ["Read", "Bash"] ++ "]")) :=
  ⟨⟨by decide, formatChunkText_spec.2.1 _ (by decide)⟩,
   ⟨rfl, formatChunkText_spec.2.2.1 _ rfl⟩,
   ⟨by decide, formatChunkText_spec.2.2.2 _ (by decide)⟩⟩

/-! ## Claim C7: summarization fallback -/

/-- Claim C7: when the external summarization service fails (throws at
any point of the streamed exchange), `summarizeChunk` catches the error
and returns exactly the first 200 characters of the input chunk text; the
error is not propagated (the function totalizes to a `String`, never an
exception). -/
theorem summarizeChunk_fallback
    (service : String → List Embedder.AgentMessage × Option String)
    (text e : String)
    (h : (service (Embedder.summarizePrompt text)).2 = some e) :
    Embedder.summarizeChunk service text = jsSlice text 200 := by
  simp only [Embedder.summarizeChunk]
  rw [h]

/-- Witness for C7: a service that throws makes `summarizeChunk` return
the 200-character fallback on a concrete text. -/
theorem summarizeChunk_fallback_witness :
    ((fun _ => (([] : List Embedder.AgentMessage), some "boom"))
        (Embedder.summarizePrompt "some chunk text")).2 = some "boom"
    ∧ Embedder.summarizeChunk
        (fun _ => (([] : List Embedder.AgentMessage), some "boom")) "some chunk text"
      = jsSlice "some chunk text" 200 :=
  ⟨rfl, summarizeChunk_fallback _ _ _ rfl⟩

/-! ## Claim C6: embedding errors are fatal -/

/-- Claim C6: `embedText` raises an error whenever the embedding endpoint
returns a non-success HTTP status or a response missing the `embedding`
field, and returns the embedding vector exactly when the response is
successful and contains it; it never substitutes a fallback value. -/
theorem embedText_errors {α : Type} (resp : Embedder.EmbedResponse α) :
    (resp.ok = false →
      Embedder.embedText resp = .error ("Ollama error: " ++ toString resp.status))
    ∧ (resp.ok = true → resp.embedding = none →
      Embedder.embedText resp = .error "No embedding in response")
    ∧ (∀ v, Embedder.embedText resp = .ok v ↔ resp.ok = true ∧ resp.embedding = some v) := by
  obtain ⟨ok, status, emb⟩ := resp
  cases ok <;> cases emb <;> simp [Embedder.embedText]

/-- Witness for C6: a failed HTTP status yields the status error, and a
successful response yields exactly the contained vector. -/
theorem embedText_errors_witness :
    (⟨false, 500, none⟩ : Embedder.EmbedResponse Int).ok = false
    ∧ Embedder.embedText (⟨false, 500, none⟩ : Embedder.EmbedResponse Int)
        = .error ("Ollama error: " ++ toString (500 : Nat))
    ∧ Embedder.embedText (⟨true, 200, some [1, 2]⟩ : Embedder.EmbedResponse Int)
        = .ok [1, 2]
    ∧ Embedder.embedText (⟨true, 200, none⟩ : Embedder.EmbedResponse Int)
        = .error "No embedding in response" :=
  ⟨rfl, (embedText_errors _).1 rfl, ((embedText_errors _).2.2 [1, 2]).mpr ⟨rfl, rfl⟩,
   (embedText_errors _).2.1 rfl rfl⟩

/-! ## Claim C4: batch idempotence -/

namespace Embedder

theorem runPipelineGo_ids_mono {ρ : Type} (recs : String → SessionOutcome ρ)
    (emb : List String) :
    ∀ (files : List String) (table : List (String × ρ)) (processed : Nat) (x : String),
      x ∈ table.map Prod.fst →
      x ∈ (runPipelineGo recs none emb table processed files).map Prod.fst := by
  intro files
  induction files with
  | nil =>
    intro table p x hx
    exact hx
  | cons id rest ih =>
    intro table p x hx
    simp only [runPipelineGo, capReached, Bool.false_eq_true, if_false]
    by_cases hm : id ∈ emb
    · rw [if_pos hm]
      exact ih table p x hx
    · rw [if_neg hm]
      by_cases hag : jsStartsWith id "agent-" = true
      · rw [if_pos hag]
        exact ih table p x hx
      · rw [if_neg hag]
        apply ih
        rw [List.map_append]
        exact List.mem_append_left _ hx

theorem runPipelineGo_noop {ρ : Type} (recs : String → SessionOutcome ρ)
    (emb : List String) :
    ∀ (files : List String) (table : List (String × ρ)) (processed : Nat),
      (∀ id ∈ files, id ∈ emb ∨ jsStartsWith id "agent-" = true ∨ (recs id).inserted = []) →
      runPipelineGo recs none emb table processed files = table := by
  intro files
  induction files with
  | nil =>
    intro table p _
    rfl
  | cons id rest ih =>
    intro table p h
    simp only [runPipelineGo, capReached, Bool.false_eq_true, if_false]
    by_cases hm : id ∈ emb
    · rw [if_pos hm]
      exact ih table p (fun q hq => h q (List.mem_cons_of_mem _ hq))
    · rw [if_neg hm]
      rcases h id (List.mem_cons_self _ _) with h1 | h2 | h3
    
      · exact absurd h1 hm
      · rw [if_pos h2]
        exact ih table p (fun q hq => h q (List.mem_cons_of_mem _ hq))
      · by_cases hag : jsStartsWith id "agent-" = true
        · rw [if_pos hag]
          exact ih table p (fun q hq => h q (List.mem_cons_of_mem _ hq))
        · rw [if_neg hag, h3]
          simp only [List.map_nil, List.append_nil]
          exact ih table _ (fun q hq => h q (List.mem_cons_of_mem _ hq))

theorem runPipelineGo_covers {ρ : Type} (recs : String → SessionOutcome ρ) :
    ∀ (files : List String) (emb : List String) (table : List (String × ρ)) (processed : Nat),
      (∀ q ∈ emb, q ∈ table.map Prod.fst) →
      ∀ id ∈ files,
        id ∈ (runPipelineGo recs none emb table processed files).map Prod.fst
        ∨ jsStartsWith id "agent-" = true ∨ (recs id).inserted = [] := by
  intro files
  induction files with
  | nil =>
    intro emb table p _ id hid
    exact absurd hid (List.not_mem_nil _)
  | cons id0 rest ih =>
    intro emb table p hsub id hid
    simp only [runPipelineGo, capReached, Bool.false_eq_true, if_false]
    by_cases hm : id0 ∈ emb
    · rw [if_pos hm]
      rcases List.mem_cons.mp hid with h1 | h2
      · subst h1
        exact Or.inl (runPipelineGo_ids_mono recs emb rest table p id (hsub id hm))
      · exact ih emb table p hsub id h2
    · rw [if_neg hm]
      by_cases hag : jsStartsWith id0 "agent-" = true
      · rw [if_pos hag]
        rcases List.mem_cons.mp hid with h1 | h2
        · subst h1
          exact Or.inr (Or.inl hag)
        · exact ih emb table p hsub id h2
      · rw [if_neg hag]
        have hsub' : ∀ q ∈ emb,
            q ∈ (table ++ (recs id0).inserted.map (fun r => (id0, r))).map Prod.fst := by
          intro q hq
          rw [List.map_append]
          exact List.mem_append_left _ (hsub q hq)
        rcases List.mem_cons.mp hid with h1 | h2
        · subst h1
          by_cases hins : (recs id).inserted = []
          · exact Or.inr (Or.inr hins)
          · refine Or.inl (runPipelineGo_ids_mono recs emb rest _ _ id ?_)
            rw [List.map_append]
            apply List.mem_append_right
            cases hrec : (recs id).inserted with
            | nil => exact absurd hrec hins
            | cons r rs => simp [hrec]
        · exact ih emb _ _ hsub' id h2

theorem runPipelineGo_force {ρ : Type} (recs : String → SessionOutcome ρ) :
    ∀ (files : List String) (table : List (String × ρ)) (processed : Nat),
      runPipelineGo recs none [] table processed files = table ++ forcedRecords recs files := by
  intro files
  induction files with
  | nil =>
    intro table p
    simp [forcedRecords, runPipelineGo]
  | cons id rest ih =>
    intro table p
    simp only [runPipelineGo, capReached, Bool.false_eq_true, if_false,
      List.not_mem_nil, if_false, forcedRecords, List.flatMap_cons]
    by_cases hag : jsStartsWith id "agent-" = true
    · rw [if_pos hag, if_pos hag]
      rw [ih table p]
      simp [forcedRecords]
    · rw [if_neg hag, if_neg hag]
      rw [ih _ _]
      simp [forcedRecords, List.append_assoc]

end Embedder

/-- Claim C4: re-running the batch pipeline without the force flag on an
unchanged session set is idempotent — the second run inserts zero new
chunk records; every session whose id is already in the table is skipped
by the embedded-ids check regardless of what processing would produce;
and with the force flag the already-embedded set is treated as empty, so
each forced run appends the full record set again (a duplicate set on the
second forced run).  `maxSessions = none` models the default (no
`--limit`, i.e. `Infinity`) run. -/
theorem pipeline_idempotence {ρ : Type} (recs : String → Embedder.SessionOutcome ρ)
    (files : List String) (table : List (String × ρ)) :
    Embedder.runPipeline recs false none files
        (Embedder.runPipeline recs false none files table)
      = Embedder.runPipeline recs false none files table
    ∧ ((∀ id ∈ files, id ∈ table.map Prod.fst) →
        Embedder.runPipeline recs false none files table = table)
    ∧ Embedder.runPipeline recs true none files table
        = table ++ Embedder.forcedRecords recs files
    ∧ Embedder.runPipeline recs true none files
        (Embedder.runPipeline recs true none files table)
      = (table ++ Embedder.forcedRecords recs files) ++ Embedder.forcedRecords recs files := by
  have hplain : ∀ t : List (String × ρ),
      Embedder.runPipeline recs false none files t
        = Embedder.runPipelineGo recs none (t.map Prod.fst) t 0 files := fun _ => rfl
  have hforce : ∀ t : List (String × ρ),
      Embedder.runPipeline recs true none files t
        = t ++ Embedder.forcedRecords recs files := by
    intro t
    show Embedder.runPipelineGo recs none [] t 0 files = t ++ Embedder.forcedRecords recs files
    exact Embedder.runPipelineGo_force recs files t 0
  refine ⟨?_, ?_, hforce table, by rw [hforce, hforce]⟩
  · have hcov := Embedder.runPipelineGo_covers recs files (table.map Prod.fst) table 0
      (fun q hq => hq)
    rw [hplain table, hplain _]
    apply Embedder.runPipelineGo_noop
    intro id hid
    exact hcov id hid
  · intro hall
    rw [hplain table]
    apply Embedder.runPipelineGo_noop
    intro id hid
    exact Or.inl (hall id hid)

/-- Witness for C4: a one-session table where the second (non-forced) run
changes nothing, and a forced run appends the duplicate record set. -/
theorem pipeline_idempotence_witness :
    (∀ id ∈ ["s1"], id ∈ ([("s1", "r")].map Prod.fst))
    ∧ Embedder.runPipeline (fun i => ⟨[i ++ "x"], true⟩) false none ["s1"] [("s1", "r")]
        = [("s1", "r")]
    ∧ Embedder.runPipeline (fun i => ⟨[i ++ "x"], true⟩) true none ["s1"] [("s1", "r")]
        = [("s1", "r")] ++ Embedder.forcedRecords (fun i => ⟨[i ++ "x"], true⟩) ["s1"] :=
  ⟨by decide,
   (pipeline_idempotence (fun i => ⟨[i ++ "x"], true⟩) ["s1"] [("s1", "r")]).2.1 (by decide),
   (pipeline_idempotence (fun i => ⟨[i ++ "x"], true⟩) ["s1"] [("s1", "r")]).2.2.1⟩

/-! ## Claim C5: similarity query -/

/-- Claim C5: for every query embedding and limit, the similarity search
over the chunk-record store considers only rows whose embedding column is
populated, ranks them by ascending cosine distance to the query (some
distance-sorted permutation of the populated rows underlies the result,
and everything returned is at most as distant as everything cut off by
the limit), returns at most `limit` records (exactly `limit` when enough
populated rows exist), reports each record's similarity as `1` minus its
cosine distance, and returns the empty list (not an error) on an empty
store. -/
theorem searchSessions_query (dist : List Int → List Int → Int)
    (table : List Embedder.ChunkRow) (queryVec : List Int) (maxResults : Nat) :
    Embedder.searchSessions dist [] queryVec maxResults = []
    ∧ (Embedder.searchSessions dist table queryVec maxResults).length
        = min maxResults (table.filter (fun r => r.embedding_vec.isSome)).length
    ∧ (∀ o ∈ Embedder.searchSessions dist table queryVec maxResults,
        ∃ r, r ∈ table ∧ r.embedding_vec.isSome
          ∧ o = Embedder.projectRow dist queryVec r
          ∧ o.similarity = 1 - dist (r.embedding_vec.getD []) queryVec)
    ∧ ∃ ordered : List Embedder.ChunkRow,
        ordered.Perm (table.filter (fun r => r.embedding_vec.isSome))
        ∧ List.Pairwise (Embedder.rowLE dist queryVec) ordered
        ∧ Embedder.searchSessions dist table queryVec maxResults
            = (ordered.take maxResults).map (Embedder.projectRow dist queryVec)
        ∧ ∀ a ∈ ordered.take maxResults, ∀ b ∈ ordered.drop maxResults,
            Embedder.rowLE dist queryVec a b := by
  have hdef : Embedder.searchSessions dist table queryVec maxResults
      = (((table.filter (fun r => r.embedding_vec.isSome)).insertionSort
            (Embedder.rowLE dist queryVec)).take maxResults).map
          (Embedder.projectRow dist queryVec) := rfl
  have hperm := List.perm_insertionSort (Embedder.rowLE dist queryVec)
    (table.filter (fun r => r.embedding_vec.isSome))
  refine ⟨by simp [Embedder.searchSessions], ?_, ?_, ?_⟩
  · rw [hdef, List.length_map, List.length_take, hperm.length_eq]
  · intro o ho
    rw [hdef] at ho
    rcases List.mem_map.mp ho with ⟨r, hr, rfl⟩
    have hr1 : r ∈ (table.filter (fun r => r.embedding_vec.isSome)).insertionSort
        (Embedder.rowLE dist queryVec) := List.mem_of_mem_take hr
    have hr2 : r ∈ table.filter (fun r => r.embedding_vec.isSome) :=
      hperm.mem_iff.mp hr1
    rcases List.mem_filter.mp hr2 with ⟨hrt, hrs⟩
    exact ⟨r, hrt, hrs, rfl, rfl⟩
  · haveI : IsTotal Embedder.ChunkRow (Embedder.rowLE dist queryVec) :=
      ⟨fun _ _ => Int.le_total _ _⟩
    haveI : IsTrans Embedder.ChunkRow (Embedder.rowLE dist queryVec) :=
      ⟨fun _ _ _ hab hbc => le_trans hab hbc⟩
    refine ⟨(table.filter (fun r => r.embedding_vec.isSome)).insertionSort
        (Embedder.rowLE dist queryVec), hperm, ?_, hdef, ?_⟩
    · exact List.sorted_insertionSort _ _
    · have hp : List.Pairwise (Embedder.rowLE dist queryVec)
          ((table.filter (fun r => r.embedding_vec.isSome)).insertionSort
            (Embedder.rowLE dist queryVec)) := List.sorted_insertionSort _ _
      rw [← List.take_append_drop maxResults
        ((table.filter (fun r => r.embedding_vec.isSome)).insertionSort
          (Embedder.rowLE dist queryVec))] at hp
      exact (List.pairwise_append.mp hp).2.2

/-- Witness for C5: on a three-row store (one row with a null embedding)
the nearest populated row is returned with similarity `1 - distance`, and
the empty store yields the empty result. -/
theorem searchSessions_query_witness :
    (Embedder.projectRow (fun v _ => v.headD 0) [9]
        ⟨"c", 2, "sc", none, some [1], [], "p", none⟩
      ∈ Embedder.searchSessions (fun v _ => v.headD 0)
          [⟨"a", 0, "sa", some "ea", some [3], [], "p", none⟩,
           ⟨"b", 1, "sb", none, none, [], "p", none⟩,
           ⟨"c", 2, "sc", none, some [1], [], "p", none⟩] [9] 5)
    ∧ (∃ r, r ∈ [(⟨"a", 0, "sa", some "ea", some [3], [], "p", none⟩ : Embedder.ChunkRow),
           ⟨"b", 1, "sb", none, none, [], "p", none⟩,
           ⟨"c", 2, "sc", none, some [1], [], "p", none⟩]
        ∧ r.embedding_vec.isSome
        ∧ Embedder.projectRow (fun v _ => v.headD 0) [9]
            ⟨"c", 2, "sc", none, some [1], [], "p", none⟩
          = Embedder.projectRow (fun v _ => v.headD 0) [9] r
        ∧ (Embedder.projectRow (fun v _ => v.headD 0) [9]
            ⟨"c", 2, "sc", none, some [1], [], "p", none⟩).similarity
          = 1 - (fun v _ => v.headD 0) (r.embedding_vec.getD []) [9])
    ∧ Embedder.searchSessions (fun v _ => v.headD 0) [] [9] 5 = [] :=
  ⟨by decide,
   (searchSessions_query (fun v _ => v.headD 0)
      [⟨"a", 0, "sa", some "ea", some [3], [], "p", none⟩,
       ⟨"b", 1, "sb", none, none, [], "p", none⟩,
       ⟨"c", 2, "sc", none, some [1], [], "p", none⟩] [9] 5).2.2.1 _ (by decide),
   (searchSessions_query (fun v _ => v.headD 0) [] [9] 5).1⟩

/-! ## Claim C3: tool-call / tool-result correlation in the tools parser -/

namespace Tools

theorem length_listModify {α : Type} (f : α → α) :
    ∀ (l : List α) (i : Nat), (listModify l i f).length = l.length := by
  intro l
  induction l with
  | nil => intro i; rfl
  | cons x xs ih =>
    intro i
    cases i with
    | zero => rfl
    | succ i => simp [listModify, ih i]

theorem getElem?_listModify {α : Type} (f : α → α) :
    ∀ (l : List α) (i j : Nat),
      (listModify l i f)[j]? = if i = j then l[j]?.map f else l[j]? := by
  intro l
  induction l with
  | nil =>
    intro i j
    simp [listModify]
  | cons x xs ih =>
    intro i j
    cases i with
    | zero =>
      cases j with
      | zero => simp [listModify]
      | succ j => simp [listModify]
    | succ i =>
      cases j with
      | zero => simp [listModify]
      | succ j =>
        simp only [listModify, List.getElem?_cons_succ]
        rw [ih i j]
        by_cases h : i = j
        · subst h
          simp
        · rw [if_neg h, if_neg (by omega)]

theorem find?_filter_of_imp {α : Type} (p q : α → Bool)
    (himp : ∀ x, p x = true → q x = true) :
    ∀ l : List α, (l.filter q).find? p = l.find? p := by
  intro l
  induction l with
  | nil => rfl
  | cons x xs ih =>
    by_cases hq : q x = true
    · rw [List.filter_cons_of_pos hq]
      by_cases hp : p x = true
      · rw [List.find?_cons_of_pos _ hp, List.find?_cons_of_pos _ hp]
      · rw [List.find?_cons_of_neg _ hp, List.find?_cons_of_neg _ hp]
        exact ih
    · rw [List.filter_cons_of_neg (by simpa using hq)]
      have hp : ¬ p x = true := fun hpx => hq (himp x hpx)
      rw [List.find?_cons_of_neg _ hp]
      exact ih

theorem pendingGet_set_self (m : Pending) (k : String) (v : Nat × Nat) :
    pendingGet (pendingSet m k v) k = some v := by
  unfold pendingGet pendingSet
  rw [List.find?_append]
  have h1 : (m.filter (fun p => p.1 != k)).find? (fun p => p.1 == k) = none := by
    rw [List.find?_eq_none]
    intro x hx
    have h2 := (List.mem_filter.mp hx).2
    simp only [bne_iff_ne, ne_eq] at h2
    simp [h2]
  rw [h1]
  simp [List.find?]

theorem pendingGet_set_ne (m : Pending) (k : String) (v : Nat × Nat) (t : String)
    (h : t ≠ k) : pendingGet (pendingSet m k v) t = pendingGet m t := by
  unfold pendingGet pendingSet
  rw [List.find?_append]
  have hkt : (k == t) = false := by
    simp [Ne.symm h]
  have h2 : List.find? (fun p => p.1 == t) [(k, v)] = none := by
    simp [List.find?, hkt]
  rw [h2]
  have himp : ∀ x : String × Nat × Nat, (x.1 == t) = true → (x.1 != k) = true := by
    intro x hx
    simp only [beq_iff_eq] at hx
    simp [hx, h]
  have hf := find?_filter_of_imp (fun p : String × Nat × Nat => p.1 == t)
    (fun p : String × Nat × Nat => p.1 != k) himp m
  rw [hf]
  simp

theorem pendingGet_del_self (m : Pending) (k : String) :
    pendingGet (pendingDel m k) k = none := by
  unfold pendingGet pendingDel
  have h1 : (m.filter (fun p => p.1 != k)).find? (fun p => p.1 == k) = none := by
    rw [List.find?_eq_none]
    intro x hx
    have h2 := (List.mem_filter.mp hx).2
    simp only [bne_iff_ne, ne_eq] at h2
    simp [h2]
  rw [h1]
  rfl

theorem pendingGet_del_ne (m : Pending) (k t : String) (h : t ≠ k) :
    pendingGet (pendingDel m k) t = pendingGet m t := by
  unfold pendingGet pendingDel
  have himp : ∀ x : String × Nat × Nat, (x.1 == t) = true → (x.1 != k) = true := by
    intro x hx
    simp only [beq_iff_eq] at hx
    simp [hx, h]
  have hf := find?_filter_of_imp (fun p : String × Nat × Nat => p.1 == t)
    (fun p : String × Nat × Nat => p.1 != k) himp m
  rw [hf]

theorem mem_pendingSet (m : Pending) (k : String) (v : Nat × Nat) (p : String × Nat × Nat)
    (h : p ∈ pendingSet m k v) : p ∈ m ∨ p = (k, v) := by
  unfold pendingSet at h
  rcases List.mem_append.mp h with h1 | h2
  · exact Or.inl (List.mem_filter.mp h1).1
  · simp at h2
    exact Or.inr h2

theorem mem_pendingDel (m : Pending) (k : String) (p : String × Nat × Nat)
    (h : p ∈ pendingDel m k) : p ∈ m ∧ p.1 ≠ k := by
  unfold pendingDel at h
  rcases List.mem_filter.mp h with ⟨h1, h2⟩
  simp only [bne_iff_ne, ne_eq] at h2
  exact ⟨h1, h2⟩

theorem pendingGet_mem (m : Pending) (k : String) (v : Nat × Nat)
    (h : pendingGet m k = some v) : (k, v) ∈ m := by
  unfold pendingGet at h
  cases hf : m.find? (fun p => p.1 == k) with
  | none => rw [hf] at h; simp at h
  | some p =>
    rw [hf] at h
    have hmem := List.mem_of_find?_eq_some hf
    have hpred := List.find?_some hf
    simp only [beq_iff_eq] at hpred
    simp only [Option.map_some'] at h
    have : p = (k, v) := by
      cases p with
      | mk p1 p2 =>
        simp only at hpred
        simp only [Option.some.injEq] at h
        rw [hpred, h]
    rw [← this]
    exact hmem

theorem SlotIs_append (msgs ms : List ParsedMessage) (mi ti : Nat) (tc : ToolCall)
    (h : SlotIs msgs mi ti tc) : SlotIs (msgs ++ ms) mi ti tc := by
  rcases h with ⟨m, hm, hrole, htc⟩
  have hlt : mi < msgs.length := by
    rcases List.getElem?_eq_some.mp hm with ⟨hl, _⟩
    exact hl
  refine ⟨m, ?_, hrole, htc⟩
  rw [List.getElem?_append, if_pos hlt]
  exact hm

theorem SlotIs_resolveAt_other (msgs : List ParsedMessage) (mi ti mj tj : Nat)
    (c : String) (er : Bool) (tc : ToolCall)
    (h : SlotIs msgs mj tj tc) (hne : ¬ (mi = mj ∧ ti = tj)) :
    SlotIs (resolveAt msgs mi ti c er) mj tj tc := by
  rcases h with ⟨m, hm, hrole, htc⟩
  by_cases hmi : mi = mj
  · subst hmi
    have hti : ti ≠ tj := fun h' => hne ⟨rfl, h'⟩
    refine ⟨{ m with toolCalls := listModify m.toolCalls ti (fun tc => resolveToolCall tc c er) }, ?_, hrole, ?_⟩
    · show (listModify msgs mi _)[mi]? = _
      rw [getElem?_listModify, if_pos rfl, hm]
      rfl
    · show (listModify m.toolCalls ti _)[tj]? = some tc
      rw [getElem?_listModify, if_neg hti]
      exact htc
  · refine ⟨m, ?_, hrole, htc⟩
    show (listModify msgs mi _)[mj]? = some m
    rw [getElem?_listModify, if_neg hmi]
    exact hm

theorem Holds_resolveItem (s : PState) (it : ContentItem) (mi ti : Nat) (tc : ToolCall)
    (h : Holds s mi ti tc) : Holds (resolveItem s it) mi ti tc := by
  rcases h with ⟨hpend, hslot⟩
  cases it with
  | text t => exact ⟨hpend, hslot⟩
  | toolUse a b c => exact ⟨hpend, hslot⟩
  | other => exact ⟨hpend, hslot⟩
  | toolResult tid c er =>
    cases hg : pendingGet s.pending tid with
    | none =>
      simp only [resolveItem, hg]
      exact ⟨hpend, hslot⟩
    | some loc =>
      obtain ⟨mi', ti'⟩ := loc
      have hmem := pendingGet_mem _ _ _ hg
      have hne : (mi', ti') ≠ (mi, ti) := hpend _ hmem
      simp only [resolveItem, hg]
      refine ⟨?_, ?_⟩
      · intro p hp
        exact hpend p (mem_pendingDel _ _ _ hp).1
      · refine SlotIs_resolveAt_other _ _ _ _ _ _ _ _ hslot ?_
        rintro ⟨h1, h2⟩
        exact hne (by rw [h1, h2])

theorem Holds_foldl_resolveItem (mi ti : Nat) (tc : ToolCall) :
    ∀ (items : List ContentItem) (s : PState), Holds s mi ti tc →
      Holds (items.foldl resolveItem s) mi ti tc := by
  intro items
  induction items with
  | nil => intro s h; exact h
  | cons it rest ih =>
    intro s h
    exact ih _ (Holds_resolveItem _ _ _ _ _ h)

theorem mem_asstItems_pending (mi : Nat) :
    ∀ (items : List ContentItem) (texts : List String) (tcs : List ToolCall)
      (pend : Pending) (p : String × Nat × Nat),
      p ∈ (asstItems mi items texts tcs pend).2.2 → p ∈ pend ∨ p.2.1 = mi := by
  intro items
  induction items with
  | nil => intro texts tcs pend p hp; exact Or.inl hp
  | cons it rest ih =>
    intro texts tcs pend p hp
    cases it with
    | text t => exact ih _ _ _ _ hp
    | toolResult a b c => exact ih _ _ _ _ hp
    | other => exact ih _ _ _ _ hp
    | toolUse id name input =>
      rcases ih _ _ _ _ hp with h1 | h2
      · rcases mem_pendingSet _ _ _ _ h1 with h3 | h4
        · exact Or.inl h3
        · right
          rw [h4]
      · exact Or.inr h2

theorem Holds_stepLine (s : PState) (l : RawLine) (mi ti : Nat) (tc : ToolCall)
    (h : Holds s mi ti tc) : Holds (stepLine s l) mi ti tc := by
  have hmi : mi < s.msgs.length := by
    rcases h.2 with ⟨m, hm, _, _⟩
    rcases List.getElem?_eq_some.mp hm with ⟨hl, _⟩
    exact hl
  cases l with
  | blank => exact h
  | malformed => exact h
  | entry e =>
    obtain ⟨ty, ro, co, ts, us, mo⟩ := e
    simp only [stepLine]
    split
    · exact h
    split
    · exact h
    split
    · cases co with
      | arr items =>
        have h' := Holds_foldl_resolveItem mi ti tc items s h
        exact ⟨h'.1, SlotIs_append _ _ _ _ _ h'.2⟩
      | str str => exact ⟨h.1, SlotIs_append _ _ _ _ _ h.2⟩
    split
    · cases co with
      | arr items =>
        refine ⟨?_, SlotIs_append _ _ _ _ _ h.2⟩
        intro p hp
        rcases mem_asstItems_pending _ items _ _ _ p hp with h1 | h2
        · exact h.1 p h1
        · intro heq
          rw [heq] at h2
          simp only at h2
          omega
      | str str => exact ⟨h.1, SlotIs_append _ _ _ _ _ h.2⟩
    · exact h

theorem Holds_foldl_stepLine (mi ti : Nat) (tc : ToolCall) :
    ∀ (lines : List RawLine) (s : PState), Holds s mi ti tc →
      Holds (lines.foldl stepLine s) mi ti tc := by
  intro lines
  induction lines with
  | nil => intro s h; exact h
  | cons l rest ih =>
    intro s h
    exact ih _ (Holds_stepLine _ _ _ _ _ h)

theorem PendingBound_resolveItem (s : PState) (it : ContentItem)
    (h : PendingBound s) : PendingBound (resolveItem s it) := by
  cases it with
  | text t => exact h
  | toolUse a b c => exact h
  | other => exact h
  | toolResult tid c er =>
    cases hg : pendingGet s.pending tid with
    | none =>
      simp only [resolveItem, hg]
      exact h
    | some loc =>
      obtain ⟨mi', ti'⟩ := loc
      simp only [resolveItem, hg]
      intro p hp
      have h1 := h p (mem_pendingDel _ _ _ hp).1
      show p.2.1 < (resolveAt s.msgs mi' ti' c er).length
      unfold resolveAt
      rw [length_listModify]
      exact h1

theorem PendingBound_foldl_resolveItem :
    ∀ (items : List ContentItem) (s : PState), PendingBound s →
      PendingBound (items.foldl resolveItem s) := by
  intro items
  induction items with
  | nil => intro s h; exact h
  | cons it rest ih =>
    intro s h
    exact ih _ (PendingBound_resolveItem _ _ h)

theorem PendingBound_stepLine (s : PState) (l : RawLine)
    (h : PendingBound s) : PendingBound (stepLine s l) := by
  cases l with
  | blank => exact h
  | malformed => exact h
  | entry e =>
    obtain ⟨ty, ro, co, ts, us, mo⟩ := e
    simp only [stepLine]
    split
    · exact h
    split
    · exact h
    split
    · cases co with
      | arr items =>
        intro p hp
        have h1 := PendingBound_foldl_resolveItem items s h p hp
        simp only [List.length_append, List.length_cons, List.length_nil]
        omega
      | str str =>
        intro p hp
        have h1 := h p hp
        simp only [List.length_append, List.length_cons, List.length_nil]
        omega
    split
    · cases co with
      | arr items =>
        intro p hp
        simp only [List.length_append, List.length_cons, List.length_nil]
        rcases mem_asstItems_pending _ items _ _ _ p hp with h1 | h2
        · have := h p h1
          omega
        · omega
      | str str =>
        intro p hp
        have h1 := h p hp
        simp only [List.length_append, List.length_cons, List.length_nil]
        omega
    · exact h

theorem PendingBound_foldl_stepLine :
    ∀ (lines : List RawLine) (s : PState), PendingBound s →
      PendingBound (lines.foldl stepLine s) := by
  intro lines
  induction lines with
  | nil => intro s h; exact h
  | cons l rest ih =>
    intro s h
    exact ih _ (PendingBound_stepLine _ _ h)

theorem PendingBound_init : PendingBound ⟨[], []⟩ := by
  intro p hp
  exact absurd hp (List.not_mem_nil p)

theorem Tracks_resolveItem (s : PState) (it : ContentItem) (t : String) (mi ti : Nat)
    (tc : ToolCall) (h : Tracks s t mi ti tc)
    (hit : itemIsToolResultId t it = false) :
    Tracks (resolveItem s it) t mi ti tc := by
  rcases h with ⟨hget, hcl, hslot⟩
  cases it with
  | text txt => exact ⟨hget, hcl, hslot⟩
  | toolUse a b c => exact ⟨hget, hcl, hslot⟩
  | other => exact ⟨hget, hcl, hslot⟩
  | toolResult tid c er =>
    have htid : tid ≠ t := by
      simpa [itemIsToolResultId] using hit
    cases hg : pendingGet s.pending tid with
    | none =>
      simp only [resolveItem, hg]
      exact ⟨hget, hcl, hslot⟩
    | some loc =>
      obtain ⟨mi', ti'⟩ := loc
      have hmem := pendingGet_mem _ _ _ hg
      have hne' : (mi', ti') ≠ (mi, ti) := by
        intro he
        exact htid (hcl _ hmem he)
      simp only [resolveItem, hg]
      refine ⟨?_, ?_, ?_⟩
      · rw [pendingGet_del_ne _ _ _ (Ne.symm htid)]
        exact hget
      · intro p hp
        exact hcl p (mem_pendingDel _ _ _ hp).1
      · refine SlotIs_resolveAt_other _ _ _ _ _ _ _ _ hslot ?_
        rintro ⟨h1, h2⟩
        exact hne' (by rw [h1, h2])

theorem Tracks_foldl_resolveItem (t : String) (mi ti : Nat) (tc : ToolCall) :
    ∀ (items : List ContentItem) (s : PState),
      (∀ it ∈ items, itemIsToolResultId t it = false) →
      Tracks s t mi ti tc → Tracks (items.foldl resolveItem s) t mi ti tc := by
  intro items
  induction items with
  | nil => intro s _ h; exact h
  | cons it rest ih =>
    intro s hall h
    exact ih _ (fun x hx => hall x (List.mem_cons_of_mem _ hx))
      (Tracks_resolveItem _ _ _ _ _ _ h (hall it (List.mem_cons_self _ _)))

theorem asstItems_pendingGet_no_use (mi : Nat) (t : String) :
    ∀ (items : List ContentItem) (texts : List String) (tcs : List ToolCall)
      (pend : Pending),
      (∀ it ∈ items, itemIsToolUseId t it = false) →
      pendingGet (asstItems mi items texts tcs pend).2.2 t = pendingGet pend t := by
  intro items
  induction items with
  | nil => intro texts tcs pend _; rfl
  | cons it rest ih =>
    intro texts tcs pend hall
    cases it with
    | text txt => exact ih _ _ _ (fun x hx => hall x (List.mem_cons_of_mem _ hx))
    | toolResult a b c => exact ih _ _ _ (fun x hx => hall x (List.mem_cons_of_mem _ hx))
    | other => exact ih _ _ _ (fun x hx => hall x (List.mem_cons_of_mem _ hx))
    | toolUse id nm ip =>
      have hid : id ≠ t := by
        simpa [itemIsToolUseId] using hall _ (List.mem_cons_self _ _)
      have hrec := ih texts (tcs ++ [{ name := nm, input := ip, result := "", isError := false }])
        (pendingSet pend id (mi, tcs.length)) (fun x hx => hall x (List.mem_cons_of_mem _ hx))
      rw [pendingGet_set_ne _ _ _ _ (Ne.symm hid)] at hrec
      exact hrec

theorem Tracks_stepLine (s : PState) (l : RawLine) (t : String) (mi ti : Nat)
    (tc : ToolCall) (h : Tracks s t mi ti tc)
    (hu : lineHasToolUseId t l = false) (hr : lineHasToolResultId t l = false) :
    Tracks (stepLine s l) t mi ti tc := by
  have hmi : mi < s.msgs.length := by
    rcases h.2.2 with ⟨m, hm, _, _⟩
    rcases List.getElem?_eq_some.mp hm with ⟨hl, _⟩
    exact hl
  cases l with
  | blank => exact h
  | malformed => exact h
  | entry e =>
    obtain ⟨ty, ro, co, ts, us, mo⟩ := e
    simp only [stepLine]
    split
    · exact h
    split
    · exact h
    split
    · cases co with
      | arr items =>
        have hall : ∀ it ∈ items, itemIsToolResultId t it = false := by
          simp only [lineHasToolResultId, List.any_eq_false] at hr
          intro x hx
          simpa using hr x hx
        have h' := Tracks_foldl_resolveItem t mi ti tc items s hall h
        exact ⟨h'.1, h'.2.1, SlotIs_append _ _ _ _ _ h'.2.2⟩
      | str str => exact ⟨h.1, h.2.1, SlotIs_append _ _ _ _ _ h.2.2⟩
    split
    · cases co with
      | arr items =>
        have hall : ∀ it ∈ items, itemIsToolUseId t it = false := by
          simp only [lineHasToolUseId, List.any_eq_false] at hu
          intro x hx
          simpa using hu x hx
        refine ⟨?_, ?_, SlotIs_append _ _ _ _ _ h.2.2⟩
        · rw [asstItems_pendingGet_no_use _ _ items _ _ _ hall]
          exact h.1
        · intro p hp heq
          rcases mem_asstItems_pending _ items _ _ _ p hp with h1 | h2
          · exact h.2.1 p h1 heq
          · exfalso
            rw [heq] at h2
            simp only at h2
            omega
      | str str => exact ⟨h.1, h.2.1, SlotIs_append _ _ _ _ _ h.2.2⟩
    · exact h

theorem Tracks_foldl_stepLine (t : String) (mi ti : Nat) (tc : ToolCall) :
    ∀ (lines : List RawLine) (s : PState),
      (∀ l ∈ lines, lineHasToolUseId t l = false ∧ lineHasToolResultId t l = false) →
      Tracks s t mi ti tc → Tracks (lines.foldl stepLine s) t mi ti tc := by
  intro lines
  induction lines with
  | nil => intro s _ h; exact h
  | cons l rest ih =>
    intro s hall h
    exact ih _ (fun x hx => hall x (List.mem_cons_of_mem _ hx))
      (Tracks_stepLine _ _ _ _ _ _ h (hall l (List.mem_cons_self _ _)).1
        (hall l (List.mem_cons_self _ _)).2)

theorem asstItems_after (mi : Nat) (t : String) (k : Nat) (tc0 : ToolCall) :
    ∀ (a₂ : List ContentItem) (texts : List String) (tcs : List ToolCall)
      (pend : Pending),
      (∀ it ∈ a₂, itemIsToolUseId t it = false) →
      pendingGet pend t = some (mi, k) →
      (∀ p ∈ pend, p.2 = (mi, k) → p.1 = t) →
      k < tcs.length → tcs[k]? = some tc0 →
      pendingGet (asstItems mi a₂ texts tcs pend).2.2 t = some (mi, k)
      ∧ (∀ p ∈ (asstItems mi a₂ texts tcs pend).2.2, p.2 = (mi, k) → p.1 = t)
      ∧ k < (asstItems mi a₂ texts tcs pend).2.1.length
      ∧ (asstItems mi a₂ texts tcs pend).2.1[k]? = some tc0 := by
  intro a₂
  induction a₂ with
  | nil =>
    intro texts tcs pend _ h1 h2 h3 h4
    exact ⟨h1, h2, h3, h4⟩
  | cons it rest ih =>
    intro texts tcs pend hall h1 h2 h3 h4
    cases it with
    | text txt =>
      exact ih _ _ _ (fun x hx => hall x (List.mem_cons_of_mem _ hx)) h1 h2 h3 h4
    | toolResult a b c =>
      exact ih _ _ _ (fun x hx => hall x (List.mem_cons_of_mem _ hx)) h1 h2 h3 h4
    | other =>
      exact ih _ _ _ (fun x hx => hall x (List.mem_cons_of_mem _ hx)) h1 h2 h3 h4
    | toolUse id nm ip =>
      have hid : id ≠ t := by
        simpa [itemIsToolUseId] using hall _ (List.mem_cons_self _ _)
      refine ih _ _ _ (fun x hx => hall x (List.mem_cons_of_mem _ hx)) ?_ ?_ ?_ ?_
      · rw [pendingGet_set_ne _ _ _ _ (Ne.symm hid)]
        exact h1
      · intro p hp heq
        rcases mem_pendingSet _ _ _ _ hp with hm | he
        · exact h2 p hm heq
        · exfalso
          rw [he] at heq
          simp only [Prod.mk.injEq] at heq
          omega
      · rw [List.length_append]
        simp only [List.length_cons, List.length_nil]
        omega
      · rw [List.getElem?_append, if_pos h3]
        exact h4

theorem countToolUses_text (txt : String) (l : List ContentItem) :
    countToolUses (.text txt :: l) = countToolUses l := rfl

theorem countToolUses_toolResult (a b : String) (c : Bool) (l : List ContentItem) :
    countToolUses (.toolResult a b c :: l) = countToolUses l := rfl

theorem countToolUses_other (l : List ContentItem) :
    countToolUses (.other :: l) = countToolUses l := rfl

theorem countToolUses_toolUse (id nm ip : String) (l : List ContentItem) :
    countToolUses (.toolUse id nm ip :: l) = countToolUses l + 1 := by
  simp [countToolUses, List.filter]

theorem asstItems_establish (mi : Nat) (t n inp : String) :
    ∀ (a₁ : List ContentItem) (a₂ : List ContentItem) (texts : List String)
      (tcs : List ToolCall) (pend : Pending),
      (∀ it ∈ a₂, itemIsToolUseId t it = false) →
      (∀ p ∈ pend, p.2.1 = mi → p.2.2 < tcs.length) →
      pendingGet (asstItems mi (a₁ ++ .toolUse t n inp :: a₂) texts tcs pend).2.2 t
          = some (mi, tcs.length + countToolUses a₁)
      ∧ (∀ p ∈ (asstItems mi (a₁ ++ .toolUse t n inp :: a₂) texts tcs pend).2.2,
          p.2 = (mi, tcs.length + countToolUses a₁) → p.1 = t)
      ∧ tcs.length + countToolUses a₁
          < (asstItems mi (a₁ ++ .toolUse t n inp :: a₂) texts tcs pend).2.1.length
      ∧ (asstItems mi (a₁ ++ .toolUse t n inp :: a₂) texts tcs pend).2.1[tcs.length
          + countToolUses a₁]? = some ⟨n, inp, "", false⟩ := by
  intro a₁
  induction a₁ with
  | nil =>
    intro a₂ texts tcs pend ha2 hbound
    have h1 : pendingGet (pendingSet pend t (mi, tcs.length)) t = some (mi, tcs.length) :=
      pendingGet_set_self _ _ _
    have h2 : ∀ p ∈ pendingSet pend t (mi, tcs.length), p.2 = (mi, tcs.length) → p.1 = t := by
      intro p hp heq
      rcases mem_pendingSet _ _ _ _ hp with hm | he
      · exfalso
        have h3 := hbound p hm
        rw [heq] at h3
        exact lt_irrefl _ (h3 rfl)
      · rw [he]
    have h3 : tcs.length < (tcs ++ [(⟨n, inp, "", false⟩ : ToolCall)]).length := by
      rw [List.length_append]
      simp
    have h4 : (tcs ++ [(⟨n, inp, "", false⟩ : ToolCall)])[tcs.length]? = some ⟨n, inp, "", false⟩ := by
      rw [List.getElem?_append, if_neg (by omega)]
      simp
    have hres := asstItems_after mi t tcs.length ⟨n, inp, "", false⟩ a₂ texts
      (tcs ++ [⟨n, inp, "", false⟩]) (pendingSet pend t (mi, tcs.length)) ha2 h1 h2 h3 h4
    exact hres
  | cons it a₁' ih =>
    intro a₂ texts tcs pend ha2 hbound
    cases it with
    | text txt =>
      have hres := ih a₂ (texts ++ [txt]) tcs pend ha2 hbound
      rw [countToolUses_text]
      exact hres
    | toolResult a b c =>
      have hres := ih a₂ texts tcs pend ha2 hbound
      rw [countToolUses_toolResult]
      exact hres
    | other =>
      have hres := ih a₂ texts tcs pend ha2 hbound
      rw [countToolUses_other]
      exact hres
    | toolUse id nm ip =>
      have hbound' : ∀ p ∈ pendingSet pend id (mi, tcs.length), p.2.1 = mi →
          p.2.2 < (tcs ++ [(⟨nm, ip, "", false⟩ : ToolCall)]).length := by
        intro p hp hp1
        rw [List.length_append]
        simp only [List.length_cons, List.length_nil]
        rcases mem_pendingSet _ _ _ _ hp with hm | he
        · have := hbound p hm hp1
          omega
        · rw [he]
          simp
      have hres := ih a₂ texts (tcs ++ [⟨nm, ip, "", false⟩])
        (pendingSet pend id (mi, tcs.length)) ha2 hbound'
      rw [List.length_append] at hres
      simp only [List.length_cons, List.length_nil] at hres
      rw [countToolUses_toolUse]
      have harith : tcs.length + (countToolUses a₁' + 1) = tcs.length + 1 + countToolUses a₁' := by
        omega
      rw [harith]
      exact hres

theorem Tracks_establish (s : PState) (ty ts mo : String) (us : Usage)
    (t n inp : String) (a₁ a₂ : List ContentItem)
    (hb : PendingBound s)
    (hty : ty = "user" ∨ ty = "assistant")
    (ha2 : ∀ it ∈ a₂, itemIsToolUseId t it = false) :
    Tracks (stepLine s (.entry ⟨ty, "assistant", .arr (a₁ ++ .toolUse t n inp :: a₂), ts, us, mo⟩))
      t s.msgs.length (countToolUses a₁) ⟨n, inp, "", false⟩ := by
  have hc1 : ¬ (ty ≠ "user" ∧ ty ≠ "assistant") := by
    rcases hty with h | h <;> simp [h]
  have hbound0 : ∀ p ∈ s.pending, p.2.1 = s.msgs.length →
      p.2.2 < ([] : List ToolCall).length := by
    intro p hp h1
    exfalso
    have := hb p hp
    omega
  have hest := asstItems_establish s.msgs.length t n inp a₁ a₂ [] [] s.pending ha2 hbound0
  simp only [List.length_nil, Nat.zero_add] at hest
  simp only [stepLine]
  rw [if_neg hc1, if_neg (by decide : ¬ ("assistant" : String) = ""),
    if_neg (by decide : ¬ ("assistant" : String) = "user")]
  simp only [if_true]
  refine ⟨hest.1, hest.2.1, ?_⟩
  refine ⟨⟨"assistant", String.intercalate " " (asstItems s.msgs.length (a₁ ++ ContentItem.toolUse t n inp :: a₂) [] [] s.pending).1, ts, (asstItems s.msgs.length (a₁ ++ ContentItem.toolUse t n inp :: a₂) [] [] s.pending).2.1, us, mo⟩, ?_, rfl, hest.2.2.2⟩
  rw [List.getElem?_append, if_neg (by omega)]
  simp

theorem Holds_resolve_step (s : PState) (ty ts mo : String) (us : Usage)
    (t c : String) (er : Bool) (u₁ u₂ : List ContentItem) (mi ti : Nat) (n inp : String)
    (h : Tracks s t mi ti ⟨n, inp, "", false⟩)
    (hty : ty = "user" ∨ ty = "assistant")
    (hu1 : ∀ it ∈ u₁, itemIsToolResultId t it = false) :
    Holds (stepLine s (.entry ⟨ty, "user", .arr (u₁ ++ .toolResult t c er :: u₂), ts, us, mo⟩))
      mi ti ⟨n, inp, jsSlice c 500, er⟩ := by
  have hc1 : ¬ (ty ≠ "user" ∧ ty ≠ "assistant") := by
    rcases hty with h' | h' <;> simp [h']
  simp only [stepLine]
  rw [if_neg hc1, if_neg (by decide : ¬ ("user" : String) = "")]
  simp only [if_true]
  have h1 := Tracks_foldl_resolveItem t mi ti ⟨n, inp, "", false⟩ u₁ s hu1 h
  rcases h1 with ⟨hget, hcl, hslot⟩
  have h2 : Holds (resolveItem (u₁.foldl resolveItem s) (.toolResult t c er)) mi ti
      ⟨n, inp, jsSlice c 500, er⟩ := by
    simp only [resolveItem, hget]
    constructor
    · intro p hp heq
      rcases mem_pendingDel _ _ _ hp with ⟨hpm, hpt⟩
      exact hpt (hcl p hpm heq)
    · rcases hslot with ⟨m, hm, hrole, htc⟩
      refine ⟨{ m with toolCalls := listModify m.toolCalls ti (fun tc => resolveToolCall tc c er) }, ?_, hrole, ?_⟩
      · show (listModify _ mi _)[mi]? = _
        rw [getElem?_listModify, if_pos rfl, hm]
        rfl
      · show (listModify m.toolCalls ti _)[ti]? = some _
        rw [getElem?_listModify, if_pos rfl, htc]
        rfl
  have h3 := Holds_foldl_resolveItem mi ti _ u₂ _ h2
  have hfold : (u₁ ++ ContentItem.toolResult t c er :: u₂).foldl resolveItem s
      = u₂.foldl resolveItem (resolveItem (u₁.foldl resolveItem s) (.toolResult t c er)) := by
    rw [List.foldl_append]
    rfl
  rw [hfold]
  exact ⟨h3.1, SlotIs_append _ _ _ _ _ h3.2⟩

theorem resolveItem_none (s : PState) (t c : String) (er : Bool)
    (h : pendingGet s.pending t = none) :
    resolveItem s (.toolResult t c er) = s := by
  simp only [resolveItem, h]

theorem pendingGetNone_resolveItem (s : PState) (it : ContentItem) (t : String)
    (h : pendingGet s.pending t = none) :
    pendingGet (resolveItem s it).pending t = none := by
  cases it with
  | text txt => exact h
  | toolUse a b c => exact h
  | other => exact h
  | toolResult tid c er =>
    cases hg : pendingGet s.pending tid with
    | none =>
      simp only [resolveItem, hg]
      exact h
    | some loc =>
      obtain ⟨mi', ti'⟩ := loc
      simp only [resolveItem, hg]
      by_cases htid : tid = t
      · subst htid
        exact pendingGet_del_self _ _
      · rw [pendingGet_del_ne _ _ _ (fun he => htid he.symm)]
        exact h

theorem pendingGetNone_foldl_resolveItem (t : String) :
    ∀ (items : List ContentItem) (s : PState),
      pendingGet s.pending t = none →
      pendingGet (items.foldl resolveItem s).pending t = none := by
  intro items
  induction items with
  | nil => intro s h; exact h
  | cons it rest ih =>
    intro s h
    exact ih _ (pendingGetNone_resolveItem _ _ _ h)

theorem pendingGetNone_stepLine (s : PState) (l : RawLine) (t : String)
    (hu : lineHasToolUseId t l = false)
    (h : pendingGet s.pending t = none) :
    pendingGet (stepLine s l).pending t = none := by
  cases l with
  | blank => exact h
  | malformed => exact h
  | entry e =>
    obtain ⟨ty, ro, co, ts, us, mo⟩ := e
    simp only [stepLine]
    split
    · exact h
    split
    · exact h
    split
    · cases co with
      | arr items => exact pendingGetNone_foldl_resolveItem t items s h
      | str str => exact h
    split
    · cases co with
      | arr items =>
        have hall : ∀ it ∈ items, itemIsToolUseId t it = false := by
          simp only [lineHasToolUseId, List.any_eq_false] at hu
          intro x hx
          simpa using hu x hx
        show pendingGet (asstItems s.msgs.length items [] [] s.pending).2.2 t = none
        rw [asstItems_pendingGet_no_use _ _ items _ _ _ hall]
        exact h
      | str str => exact h
    · exact h

theorem pendingGetNone_foldl_stepLine (t : String) :
    ∀ (lines : List RawLine) (s : PState),
      (∀ l ∈ lines, lineHasToolUseId t l = false) →
      pendingGet s.pending t = none →
      pendingGet (lines.foldl stepLine s).pending t = none := by
  intro lines
  induction lines with
  | nil => intro s _ h; exact h
  | cons l rest ih =>
    intro s hall h
    exact ih _ (fun x hx => hall x (List.mem_cons_of_mem _ hx))
      (pendingGetNone_stepLine _ _ _ (hall l (List.mem_cons_self _ _)) h)

theorem stepLine_drop_result (s : PState) (ty ts mo : String) (us : Usage)
    (t c : String) (er : Bool) (u₁ u₂ : List ContentItem)
    (hty : ty = "user" ∨ ty = "assistant")
    (h : pendingGet s.pending t = none) :
    stepLine s (.entry ⟨ty, "user", .arr (u₁ ++ .toolResult t c er :: u₂), ts, us, mo⟩)
      = stepLine s (.entry ⟨ty, "user", .arr (u₁ ++ u₂), ts, us, mo⟩) := by
  have hc1 : ¬ (ty ≠ "user" ∧ ty ≠ "assistant") := by
    rcases hty with h' | h' <;> simp [h']
  simp only [stepLine]
  rw [if_neg hc1, if_neg (by decide : ¬ ("user" : String) = "")]
  simp only [if_true]
  have hnone1 : pendingGet (u₁.foldl resolveItem s).pending t = none :=
    pendingGetNone_foldl_resolveItem t u₁ s h
  have hs : (u₁ ++ ContentItem.toolResult t c er :: u₂).foldl resolveItem s
      = (u₁ ++ u₂).foldl resolveItem s := by
    rw [List.foldl_append, List.foldl_append, List.foldl_cons,
      resolveItem_none _ _ _ _ hnone1]
  have htext : userText (u₁ ++ ContentItem.toolResult t c er :: u₂)
      = userText (u₁ ++ u₂) := by
    simp [userText, List.filterMap_append, List.filterMap_cons]
  rw [hs, htext, if_neg hc1, if_neg (by decide : ¬ ("user" : String) = "")]

end Tools

/-- Claim C3: in the tools-parser (`tools.ts`, lines 121-198), (a) a
`tool_use` item with identifier `t` (the only `tool_use` with that id in
its tail and with no `tool_result` for `t` arriving before the matching
one) followed by a later `tool_result` with `tool_use_id = t` yields a
`ToolInvocation` whose result is the `tool_result` content truncated to
500 characters together with its error flag — and, because the pending
map entry is removed on resolution, any further `tool_result` items for
`t` (in the same message or in later lines, both left unconstrained) are
dropped, so resolution is at-most-once; (b) a `tool_result` whose id was
never used by a `tool_use` is ignored without error — the parse equals
the parse of the log with that item removed; (c) a `tool_use` with no
later matching result remains unresolved (empty result, `isError` false)
without error. -/
theorem parse_tool_resolution :
    (∀ (pre mid post : List RawLine) (tyA tsA moA tyU tsU moU : String)
        (usA usU : Usage) (a₁ a₂ u₁ u₂ : List ContentItem)
        (t n inp c : String) (er : Bool),
      (tyA = "user" ∨ tyA = "assistant") →
      (∀ it ∈ a₂, Tools.itemIsToolUseId t it = false) →
      (∀ l ∈ mid, Tools.lineHasToolUseId t l = false
        ∧ Tools.lineHasToolResultId t l = false) →
      (tyU = "user" ∨ tyU = "assistant") →
      (∀ it ∈ u₁, Tools.itemIsToolResultId t it = false) →
      ∃ m, (Tools.parseSessionJsonl (pre
              ++ .entry ⟨tyA, "assistant", .arr (a₁ ++ .toolUse t n inp :: a₂), tsA, usA, moA⟩
              :: (mid
              ++ .entry ⟨tyU, "user", .arr (u₁ ++ .toolResult t c er :: u₂), tsU, usU, moU⟩
              :: post)))[(Tools.parseSessionJsonl pre).length]? = some m
        ∧ m.role = "assistant"
        ∧ m.toolCalls[Tools.countToolUses a₁]? = some ⟨n, inp, jsSlice c 500, er⟩)
    ∧ (∀ (pre post : List RawLine) (ty ts mo : String) (us : Usage)
        (u₁ u₂ : List ContentItem) (t c : String) (er : Bool),
      (ty = "user" ∨ ty = "assistant") →
      (∀ l ∈ pre, Tools.lineHasToolUseId t l = false) →
      Tools.parseSessionJsonl (pre
          ++ .entry ⟨ty, "user", .arr (u₁ ++ .toolResult t c er :: u₂), ts, us, mo⟩ :: post)
        = Tools.parseSessionJsonl (pre
          ++ .entry ⟨ty, "user", .arr (u₁ ++ u₂), ts, us, mo⟩ :: post))
    ∧ (∀ (pre post : List RawLine) (tyA tsA moA : String) (usA : Usage)
        (a₁ a₂ : List ContentItem) (t n inp : String),
      (tyA = "user" ∨ tyA = "assistant") →
      (∀ it ∈ a₂, Tools.itemIsToolUseId t it = false) →
      (∀ l ∈ post, Tools.lineHasToolUseId t l = false
        ∧ Tools.lineHasToolResultId t l = false) →
      ∃ m, (Tools.parseSessionJsonl (pre
              ++ .entry ⟨tyA, "assistant", .arr (a₁ ++ .toolUse t n inp :: a₂), tsA, usA, moA⟩
              :: post))[(Tools.parseSessionJsonl pre).length]? = some m
        ∧ m.role = "assistant"
        ∧ m.toolCalls[Tools.countToolUses a₁]? = some ⟨n, inp, "", false⟩) := by
  refine ⟨?_, ?_, ?_⟩
  · intro pre mid post tyA tsA moA tyU tsU moU usA usU a₁ a₂ u₁ u₂ t n inp c er
      htyA ha2 hmid htyU hu1
    have hb : Tools.PendingBound (pre.foldl Tools.stepLine ⟨[], []⟩) :=
      Tools.PendingBound_foldl_stepLine pre _ Tools.PendingBound_init
    have h1 := Tools.Tracks_establish (pre.foldl Tools.stepLine ⟨[], []⟩)
      tyA tsA moA usA t n inp a₁ a₂ hb htyA ha2
    have h2 := Tools.Tracks_foldl_stepLine t _ _ _ mid _ hmid h1
    have h3 := Tools.Holds_resolve_step _ tyU tsU moU usU t c er u₁ u₂ _ _ n inp h2 htyU hu1
    have h4 := Tools.Holds_foldl_stepLine _ _ _ post _ h3
    rcases h4.2 with ⟨m, hm, hrole, htc⟩
    refine ⟨m, ?_, hrole, htc⟩
    show (Tools.parseSessionJsonl _)[(pre.foldl Tools.stepLine ⟨[], []⟩).msgs.length]? = some m
    unfold Tools.parseSessionJsonl
    rw [List.foldl_append, List.foldl_cons, List.foldl_append, List.foldl_cons]
    exact hm
  · intro pre post ty ts mo us u₁ u₂ t c er hty hpre
    have hn : Tools.pendingGet (pre.foldl Tools.stepLine ⟨[], []⟩).pending t = none :=
      Tools.pendingGetNone_foldl_stepLine t pre _ hpre rfl
    have hstep := Tools.stepLine_drop_result (pre.foldl Tools.stepLine ⟨[], []⟩)
      ty ts mo us t c er u₁ u₂ hty hn
    unfold Tools.parseSessionJsonl
    rw [List.foldl_append, List.foldl_cons, List.foldl_append, List.foldl_cons, hstep]
  · intro pre post tyA tsA moA usA a₁ a₂ t n inp htyA ha2 hpost
    have hb : Tools.PendingBound (pre.foldl Tools.stepLine ⟨[], []⟩) :=
      Tools.PendingBound_foldl_stepLine pre _ Tools.PendingBound_init
    have h1 := Tools.Tracks_establish (pre.foldl Tools.stepLine ⟨[], []⟩)
      tyA tsA moA usA t n inp a₁ a₂ hb htyA ha2
    have h2 := Tools.Tracks_foldl_stepLine t _ _ _ post _ hpost h1
    rcases h2.2.2 with ⟨m, hm, hrole, htc⟩
    refine ⟨m, ?_, hrole, htc⟩
    show (Tools.parseSessionJsonl _)[(pre.foldl Tools.stepLine ⟨[], []⟩).msgs.length]? = some m
    unfold Tools.parseSessionJsonl
    rw [List.foldl_append, List.foldl_cons]
    exact hm

/-- Witness for C3: the spec's end-to-end scenario — an assistant message
invoking tool `Read` (id `t1`) and a later user message carrying
`{tool_use_id: "t1", content: "ok", is_error: false}` resolves the
invocation to result `"ok"`; an orphan result for `t9` is dropped without
effect; an unanswered `tool_use` stays unresolved. -/
theorem parse_tool_resolution_witness :
    (∃ m, (Tools.parseSessionJsonl
        [.entry ⟨"assistant", "assistant", .arr ([] ++ .toolUse "t1" "Read" "{}" :: []), "a1", ⟨none, none, none⟩, "m"⟩,
         .entry ⟨"user", "user", .arr ([] ++ .toolResult "t1" "ok" false :: []), "u1", ⟨none, none, none⟩, ""⟩])[(Tools.parseSessionJsonl []).length]? = some m
      ∧ m.role = "assistant"
      ∧ m.toolCalls[Tools.countToolUses []]? = some ⟨"Read", "{}", jsSlice "ok" 500, false⟩)
    ∧ Tools.parseSessionJsonl
        [.entry ⟨"user", "user", .arr ([] ++ .toolResult "t9" "orphan" true :: []), "u2", ⟨none, none, none⟩, ""⟩]
      = Tools.parseSessionJsonl
        [.entry ⟨"user", "user", .arr ([] ++ ([] : List ContentItem)), "u2", ⟨none, none, none⟩, ""⟩]
    ∧ (∃ m, (Tools.parseSessionJsonl
        [.entry ⟨"assistant", "assistant", .arr ([] ++ .toolUse "t2" "Bash" "{}" :: []), "a2", ⟨none, none, none⟩, "m"⟩])[(Tools.parseSessionJsonl []).length]? = some m
      ∧ m.role = "assistant"
      ∧ m.toolCalls[Tools.countToolUses []]? = some ⟨"Bash", "{}", "", false⟩) :=
  ⟨parse_tool_resolution.1 [] [] [] "assistant" "a1" "m" "user" "u1" ""
      ⟨none, none, none⟩ ⟨none, none, none⟩ [] [] [] [] "t1" "Read" "{}" "ok" false
      (Or.inr rfl) (by decide) (by decide) (Or.inl rfl) (by decide),
   parse_tool_resolution.2.1 [] [] "user" "u2" "" ⟨none, none, none⟩ [] [] "t9" "orphan" true
      (Or.inl rfl) (by decide),
   parse_tool_resolution.2.2 [] [] "assistant" "a2" "m" ⟨none, none, none⟩ [] [] "t2" "Bash" "{}"
      (Or.inr rfl) (by decide) (by decide)⟩

/-! ## Claim C9: parser role invariant -/

namespace Tools

theorem mem_listModify {α : Type} (f : α → α) :
    ∀ (l : List α) (i : Nat) (x : α),
      x ∈ listModify l i f → x ∈ l ∨ ∃ y ∈ l, x = f y := by
  intro l
  induction l with
  | nil => intro i x hx; exact Or.inl hx
  | cons a xs ih =>
    intro i x hx
    cases i with
    | zero =>
      rcases List.mem_cons.mp hx with h1 | h2
      · exact Or.inr ⟨a, List.mem_cons_self _ _, h1⟩
      · exact Or.inl (List.mem_cons_of_mem _ h2)
    | succ i =>
      rcases List.mem_cons.mp hx with h1 | h2
      · exact Or.inl (h1 ▸ List.mem_cons_self _ _)
      · rcases ih i x h2 with h3 | ⟨y, hy, hxy⟩
        · exact Or.inl (List.mem_cons_of_mem _ h3)
        · exact Or.inr ⟨y, List.mem_cons_of_mem _ hy, hxy⟩

theorem roles_resolveItem (s : PState) (it : ContentItem)
    (h : ∀ m ∈ s.msgs, m.role = "user" ∨ m.role = "assistant") :
    ∀ m ∈ (resolveItem s it).msgs, m.role = "user" ∨ m.role = "assistant" := by
  cases it with
  | text txt => exact h
  | toolUse a b c => exact h
  | other => exact h
  | toolResult tid c er =>
    cases hg : pendingGet s.pending tid with
    | none =>
      simp only [resolveItem, hg]
      exact h
    | some loc =>
      obtain ⟨mi', ti'⟩ := loc
      simp only [resolveItem, hg]
      intro m hm
      unfold resolveAt at hm
      rcases mem_listModify _ s.msgs mi' m hm with h1 | ⟨y, hy, rfl⟩
      · exact h m h1
      · exact h y hy

theorem roles_foldl_resolveItem :
    ∀ (items : List ContentItem) (s : PState),
      (∀ m ∈ s.msgs, m.role = "user" ∨ m.role = "assistant") →
      ∀ m ∈ (items.foldl resolveItem s).msgs, m.role = "user" ∨ m.role = "assistant" := by
  intro items
  induction items with
  | nil => intro s h; exact h
  | cons it rest ih =>
    intro s h
    exact ih _ (roles_resolveItem _ _ h)

theorem roles_stepLine (s : PState) (l : RawLine)
    (h : ∀ m ∈ s.msgs, m.role = "user" ∨ m.role = "assistant") :
    ∀ m ∈ (stepLine s l).msgs, m.role = "user" ∨ m.role = "assistant" := by
  cases l with
  | blank => exact h
  | malformed => exact h
  | entry e =>
    obtain ⟨ty, ro, co, ts, us, mo⟩ := e
    simp only [stepLine]
    split
    · exact h
    split
    · exact h
    split
    · cases co with
      | arr items =>
        intro m hm
        rcases List.mem_append.mp hm with h1 | h2
        · exact roles_foldl_resolveItem items s h m h1
        · simp only [List.mem_singleton] at h2
          subst h2
          exact Or.inl rfl
      | str str =>
        intro m hm
        rcases List.mem_append.mp hm with h1 | h2
        · exact h m h1
        · simp only [List.mem_singleton] at h2
          subst h2
          exact Or.inl rfl
    split
    · cases co with
      | arr items =>
        intro m hm
        rcases List.mem_append.mp hm with h1 | h2
        · exact h m h1
        · simp only [List.mem_singleton] at h2
          subst h2
          exact Or.inr rfl
      | str str =>
        intro m hm
        rcases List.mem_append.mp hm with h1 | h2
        · exact h m h1
        · simp only [List.mem_singleton] at h2
          subst h2
          exact Or.inr rfl
    · exact h

theorem roles_foldl_stepLine :
    ∀ (lines : List RawLine) (s : PState),
      (∀ m ∈ s.msgs, m.role = "user" ∨ m.role = "assistant") →
      ∀ m ∈ (lines.foldl stepLine s).msgs, m.role = "user" ∨ m.role = "assistant" := by
  intro lines
  induction lines with
  | nil => intro s h; exact h
  | cons l rest ih =>
    intro s h
    exact ih _ (roles_stepLine _ _ h)

end Tools

/-- Counterexample for C9: a raw line whose top-level type tag is `user`
and whose message role field is the non-empty string `"tool"` makes the
embedder-parser (`embedder.ts`, lines 569-615) emit a `ParsedMessage`
whose role is `"tool"` — neither `user` nor `assistant` — because that
parser pushes the role field verbatim. -/
theorem parser_role_counterexample :
    ¬ (∀ m ∈ Embedder.parseSessionJsonl
        [.entry ⟨"user", "tool", .str "x", "", ⟨none, none, none⟩, ""⟩],
        m.role = "user" ∨ m.role = "assistant") := by
  decide

/-- Claim C9 (amended): in the tools-parser (`tools.ts`, lines 121-198)
every emitted `ParsedMessage` has role exactly `user` or `assistant`; the
embedder-parser (`embedder.ts`, lines 569-615) instead copies the line's
role field verbatim — for every raw log line whose top-level type tag is
`user` or `assistant` and whose role field is present, it emits a message
whose role equals that role field (which need not be `user` or
`assistant`). -/
theorem parser_roles_amended :
    (∀ lines : List RawLine, ∀ m ∈ Tools.parseSessionJsonl lines,
      m.role = "user" ∨ m.role = "assistant")
    ∧ (∀ e : Entry, (e.type = "user" ∨ e.type = "assistant") → e.role ≠ "" →
        ∃ m, Embedder.parseLine (.entry e) = some m ∧ m.role = e.role) := by
  constructor
  · intro lines
    exact Tools.roles_foldl_stepLine lines ⟨[], []⟩
      (fun m hm => absurd hm (List.not_mem_nil m))
  · intro e hty hrole
    obtain ⟨ty, ro, co, ts, us, mo⟩ := e
    have hc1 : ¬ (ty ≠ "user" ∧ ty ≠ "assistant") := by
      rcases hty with h | h <;> simp_all
    simp only [Embedder.parseLine]
    rw [if_neg hc1, if_neg hrole]
    by_cases h1 : ro = "user"
    · rw [if_pos h1]
      cases co with
      | arr items => exact ⟨_, rfl, rfl⟩
      | str str => exact ⟨_, rfl, rfl⟩
    · rw [if_neg h1]
      by_cases h2 : ro = "assistant"
      · rw [if_pos h2]
        cases co with
        | arr items => exact ⟨_, rfl, rfl⟩
        | str str => exact ⟨_, rfl, rfl⟩
      · rw [if_neg h2]
        exact ⟨_, rfl, rfl⟩

/-- Witness for C9 (amended): the tools-parser invariant on a concrete
log, and the embedder-parser's verbatim role on the counterexample line. -/
theorem parser_roles_amended_witness :
    (∀ m ∈ Tools.parseSessionJsonl
        [.entry ⟨"user", "user", .str "hi", "t0", ⟨none, none, none⟩, ""⟩,
         .entry ⟨"assistant", "assistant", .arr [.text "ok"], "t1", ⟨none, none, none⟩, "m"⟩],
      m.role = "user" ∨ m.role = "assistant")
    ∧ (((⟨"user", "tool", .str "x", "", ⟨none, none, none⟩, ""⟩ : Entry).type = "user"
        ∨ (⟨"user", "tool", .str "x", "", ⟨none, none, none⟩, ""⟩ : Entry).type = "assistant")
      ∧ (⟨"user", "tool", .str "x", "", ⟨none, none, none⟩, ""⟩ : Entry).role ≠ ""
      ∧ ∃ m, Embedder.parseLine
          (.entry ⟨"user", "tool", .str "x", "", ⟨none, none, none⟩, ""⟩) = some m
        ∧ m.role = (⟨"user", "tool", .str "x", "", ⟨none, none, none⟩, ""⟩ : Entry).role) :=
  ⟨parser_roles_amended.1 _,
   Or.inl rfl, by decide,
   parser_roles_amended.2 _ (Or.inl rfl) (by decide)⟩
